import Mathlib

/-!
A shallow embedding of the engine-agnostic rule core of the `particlz`
grid-puzzle game (the `src/model` modules: grids, board, beam targeting,
movement solver, support analysis, level progress, PBC1 codec), together
with theorems settling the specification claims about it.

Machine integers (`usize`, `u8`) are modelled as `Nat`; the Rust code's
dense `row * cols + col` indexed arrays are modelled as `List (Option _)`
with the same flat indexing.  Loops whose termination is a meta-level
fact in Rust (the recursive `gather`, the pruning fixpoint, the beam
ray-cast, the support BFS) are modelled with an explicit fuel parameter,
and fuel-sufficiency is proved where a claim needs it.
-/

namespace Particlz

/-! ## Basic enumerations (from `src/model.rs` and `src/model/element.rs`) -/

inductive Tint where
  | White
  | Green
  | Yellow
  | Red
deriving DecidableEq

/-- `Tint::from_repr` (strum `FromRepr` on the `#[repr(u8)]` enum). -/
def Tint.fromRepr : Nat → Option Tint
  | 0 => some .White
  | 1 => some .Green
  | 2 => some .Yellow
  | 3 => some .Red
  | _ => none

inductive Direction where
  | Up
  | Left
  | Down
  | Right
deriving DecidableEq

/-- All directions in declaration (ordinal) order, as iterated by
`Direction::iter()` and by `EnumSet<Direction>`. -/
def Direction.all : List Direction := [.Up, .Left, .Down, .Right]

inductive Orientation where
  | Horizontal
  | Vertical
deriving DecidableEq

def Direction.orientation : Direction → Orientation
  | .Up | .Down => .Vertical
  | .Left | .Right => .Horizontal

def Orientation.flip : Orientation → Orientation
  | .Horizontal => .Vertical
  | .Vertical => .Horizontal

inductive TileKind where
  | Platform
  | Collector
deriving DecidableEq

/-- `TileKind::from_repr`. -/
def TileKind.fromRepr : Nat → Option TileKind
  | 0 => some .Platform
  | 1 => some .Collector
  | _ => none

structure Tile where
  kind : TileKind
  tint : Tint
deriving DecidableEq

inductive Border where
  | Wall
  | Window
deriving DecidableEq

structure BoardCoords where
  row : Nat
  col : Nat
deriving DecidableEq

instance : Inhabited BoardCoords := ⟨⟨0, 0⟩⟩

structure Dimensions where
  rows : Nat
  cols : Nat
deriving DecidableEq

def Dimensions.contains (d : Dimensions) (c : BoardCoords) : Bool :=
  decide (c.row < d.rows) && decide (c.col < d.cols)

/-- `Dimensions::index`: flat index `row*cols + col`. -/
def Dimensions.index (d : Dimensions) (c : BoardCoords) : Nat :=
  c.row * d.cols + c.col

/-- `Dimensions::coords`: inverse of `index` for valid flat indices. -/
def Dimensions.coordOf (d : Dimensions) (idx : Nat) : BoardCoords :=
  ⟨idx / d.cols, idx % d.cols⟩

/-- `Dimensions::iter`: all coordinates in flat-index (row-major) order. -/
def Dimensions.iter (d : Dimensions) : List BoardCoords :=
  (List.range (d.rows * d.cols)).map d.coordOf

def Dimensions.cellCount (d : Dimensions) : Nat := d.rows * d.cols

/-- `BoardCoords::to_border_coords`. -/
def BoardCoords.toBorderCoords (c : BoardCoords) : Direction → BoardCoords
  | .Up | .Left => c
  | .Down => ⟨c.row + 1, c.col⟩
  | .Right => ⟨c.row, c.col + 1⟩

inductive BeamTargetKind where
  | Piece
  | Border
deriving DecidableEq

structure BeamTarget where
  kind : BeamTargetKind
  coords : BoardCoords
deriving DecidableEq

def BeamTarget.border (c : BoardCoords) : BeamTarget := ⟨.Border, c⟩

def BeamTarget.piece (c : BoardCoords) : BeamTarget := ⟨.Piece, c⟩

inductive Emitters where
  | Left
  | Up
  | Right
  | Down
  | LeftUp
  | LeftDown
  | RightUp
  | RightDown
  | LeftRight
  | UpDown
deriving DecidableEq

/-- `Emitters::from_repr`. -/
def Emitters.fromRepr : Nat → Option Emitters
  | 0 => some .Left
  | 1 => some .Up
  | 2 => some .Right
  | 3 => some .Down
  | 4 => some .LeftUp
  | 5 => some .LeftDown
  | 6 => some .RightUp
  | 7 => some .RightDown
  | 8 => some .LeftRight
  | 9 => some .UpDown
  | _ => none

/-- `Emitters::directions`: the resulting `EnumSet<Direction>` iterates in
enum-ordinal order (Up, Left, Down, Right). -/
def Emitters.directions : Emitters → List Direction
  | .Left => [.Left]
  | .Up => [.Up]
  | .Right => [.Right]
  | .Down => [.Down]
  | .LeftUp => [.Up, .Left]
  | .LeftDown => [.Left, .Down]
  | .RightUp => [.Up, .Right]
  | .RightDown => [.Down, .Right]
  | .LeftRight => [.Left, .Right]
  | .UpDown => [.Up, .Down]

/-- Model of `EnumMap<Direction, Option<BeamTarget>>`: one slot per
direction (kept as a four-field structure so equality stays decidable). -/
structure TargetMap where
  up : Option BeamTarget
  left : Option BeamTarget
  down : Option BeamTarget
  right : Option BeamTarget
deriving DecidableEq

def TargetMap.empty : TargetMap := ⟨none, none, none, none⟩

def TargetMap.get (m : TargetMap) : Direction → Option BeamTarget
  | .Up => m.up
  | .Left => m.left
  | .Down => m.down
  | .Right => m.right

def TargetMap.set (m : TargetMap) (d : Direction) (t : Option BeamTarget) : TargetMap :=
  match d with
  | .Up => { m with up := t }
  | .Left => { m with left := t }
  | .Down => { m with down := t }
  | .Right => { m with right := t }

structure Particle where
  tint : Tint
deriving DecidableEq

structure Manipulator where
  emitters : Emitters
  targets : TargetMap
deriving DecidableEq

/-- `Manipulator::new`: targets start out empty (`EnumMap::default()`). -/
def Manipulator.new (e : Emitters) : Manipulator := ⟨e, TargetMap.empty⟩

/-- `Manipulator::iter_targets` restricted to stored values: the Rust code
unwraps the per-direction `Option` (panicking when a target is missing);
we skip missing entries, which coincides with the source on every board
whose beams have been retargeted. -/
def Manipulator.iterTargets (m : Manipulator) : List BeamTarget :=
  m.emitters.directions.filterMap m.targets.get

inductive Piece where
  | Particle (p : Particlz.Particle)
  | Manipulator (m : Particlz.Manipulator)
deriving DecidableEq

def Piece.asManipulator : Piece → Option Particlz.Manipulator
  | .Manipulator m => some m
  | _ => none

/-! ## Grid storage (from `src/model/grid.rs`) -/

structure GridMap (T : Type) where
  dims : Dimensions
  cells : List (Option T)
deriving DecidableEq

def GridMap.new (T : Type) (rows cols : Nat) : GridMap T :=
  ⟨⟨rows, cols⟩, List.replicate (rows * cols) none⟩

def GridMap.like {T U : Type} (other : GridMap U) : GridMap T :=
  GridMap.new T other.dims.rows other.dims.cols

def GridMap.get {T : Type} (g : GridMap T) (c : BoardCoords) : Option T :=
  (g.cells.getD (g.dims.index c) none)

def GridMap.set {T : Type} (g : GridMap T) (c : BoardCoords) (v : Option T) : GridMap T :=
  { g with cells := g.cells.set (g.dims.index c) v }

/-- `GridMap::take`: read the value and clear the cell. -/
def GridMap.take {T : Type} (g : GridMap T) (c : BoardCoords) : Option T × GridMap T :=
  (g.get c, g.set c none)

/-- Coordinates of the occupied cells, in flat-index order
(`GridMap::iter` yields `(coords, value)` pairs in this order). -/
def GridMap.iterCoords {T : Type} (g : GridMap T) : List BoardCoords :=
  ((List.range g.cells.length).filter (fun i => (g.cells.getD i none).isSome)).map
    g.dims.coordOf

/-- Membership bitset over coordinates; the Rust byte-packed masks are
modelled as one `Bool` per cell with identical flat indexing. -/
structure GridSet where
  dims : Dimensions
  bits : List Bool
deriving DecidableEq

def GridSet.new (rows cols : Nat) : GridSet :=
  ⟨⟨rows, cols⟩, List.replicate (rows * cols) false⟩

def GridSet.like {T : Type} (other : GridMap T) : GridSet :=
  GridSet.new other.dims.rows other.dims.cols

def GridSet.contains (s : GridSet) (c : BoardCoords) : Bool :=
  s.bits.getD (s.dims.index c) false

def GridSet.insert (s : GridSet) (c : BoardCoords) : GridSet :=
  { s with bits := s.bits.set (s.dims.index c) true }

def GridSet.remove (s : GridSet) (c : BoardCoords) : GridSet :=
  { s with bits := s.bits.set (s.dims.index c) false }

/-- `GridSet::iter`: member coordinates in ascending flat-index order. -/
def GridSet.members (s : GridSet) : List BoardCoords :=
  s.dims.iter.filter s.contains

/-- `GridSet::for_each` processes members in ascending index order for
Up/Left and in descending order for Down/Right. -/
def GridSet.orderedMembers (s : GridSet) : Direction → List BoardCoords
  | .Up | .Left => s.members
  | .Down | .Right => s.members.reverse

/-- Ring-buffer queue over grid coordinates (`GridQueue`), capacity
`rows*cols`.  `push` models the Rust `assert!` (queue-full) as `none`. -/
structure GridQueue where
  buffer : List BoardCoords
  pushIdx : Nat
  popIdx : Option Nat
deriving DecidableEq

def GridQueue.forGrid (s : GridSet) : GridQueue :=
  ⟨List.replicate (s.dims.rows * s.dims.cols) default, 0, none⟩

def GridQueue.wrapInc (q : GridQueue) (idx : Nat) : Nat :=
  if idx + 1 = q.buffer.length then 0 else idx + 1

def GridQueue.push (q : GridQueue) (c : BoardCoords) : Option GridQueue :=
  if q.popIdx = some q.pushIdx then
    none
  else
    some { buffer := q.buffer.set q.pushIdx c
           pushIdx := q.wrapInc q.pushIdx
           popIdx := match q.popIdx with
             | none => some q.pushIdx
             | some i => some i }

def GridQueue.pop (q : GridQueue) : Option (BoardCoords × GridQueue) :=
  match q.popIdx with
  | none => none
  | some popIdx =>
    let result := q.buffer.getD popIdx default
    let popIdx1 := q.wrapInc popIdx
    some (result, { q with popIdx := if popIdx1 = q.pushIdx then none else some popIdx1 })

/-! ## Board (from `src/model/board.rs`) -/

structure Board where
  dims : Dimensions
  tiles : GridMap Tile
  horzBorders : GridMap Border
  vertBorders : GridMap Border
  pieces : GridMap Piece
deriving DecidableEq

def Board.new (rows cols : Nat) : Board :=
  { dims := ⟨rows, cols⟩
    tiles := GridMap.new Tile rows cols
    horzBorders := GridMap.new Border (rows + 1) cols
    vertBorders := GridMap.new Border rows (cols + 1)
    pieces := GridMap.new Piece rows cols }

/-- `Board::neighbor`. -/
def Board.neighbor (b : Board) (c : BoardCoords) : Direction → Option BoardCoords
  | .Up => if c.row = 0 then none else some ⟨c.row - 1, c.col⟩
  | .Left => if c.col = 0 then none else some ⟨c.row, c.col - 1⟩
  | .Down => if c.row + 1 < b.dims.rows then some ⟨c.row + 1, c.col⟩ else none
  | .Right => if c.col + 1 < b.dims.cols then some ⟨c.row, c.col + 1⟩ else none

def Board.borders (b : Board) : Orientation → GridMap Border
  | .Horizontal => b.horzBorders
  | .Vertical => b.vertBorders

/-- One step of the `Board::find_beam_target` ray-cast loop, with fuel.
Returns `none` only on fuel exhaustion, which the sufficiency lemma rules
out for in-bounds starting coordinates. -/
def Board.findBeamTargetGo (b : Board) (d : Direction) : Nat → BoardCoords → Option BeamTarget
  | 0, _ => none
  | fuel + 1, pc =>
    let borderCoords := pc.toBorderCoords d
    if (b.borders d.orientation.flip).get borderCoords = some Border.Wall then
      some (BeamTarget.border borderCoords)
    else
      match b.neighbor pc d with
      | none => some (BeamTarget.border borderCoords)
      | some nbr =>
        if (b.pieces.get nbr).isSome then
          some (BeamTarget.piece nbr)
        else
          b.findBeamTargetGo d fuel nbr

/-- `Board::find_beam_target` (the scan visits at most `rows` or `cols`
cells from an in-bounds start, so this fuel always suffices there). -/
def Board.findBeamTarget (b : Board) (c : BoardCoords) (d : Direction) : Option BeamTarget :=
  b.findBeamTargetGo d (b.dims.rows + b.dims.cols + 1) c

/-- `Board::retarget_beams`: recompute every manipulator's cached target
for each of its emitter directions, scanning cells in index order.  (The
ray-cast never reads cached targets, so the sequential updates are
order-independent, exactly as in the source.) -/
def Board.retargetBeams (b : Board) : Board :=
  b.dims.iter.foldl
    (fun acc c =>
      match acc.pieces.get c with
      | some (Piece.Manipulator m) =>
        let m1 := m.emitters.directions.foldl
          (fun mm dir => { mm with targets := mm.targets.set dir (acc.findBeamTarget c dir) }) m
        { acc with pieces := acc.pieces.set c (some (Piece.Manipulator m1)) }
      | _ => acc)
    b

/-- `Board::move_piece`: take the piece at `from` and store it at `to`. -/
def Board.movePiece (b : Board) (fromCoords toCoords : BoardCoords) : Board :=
  let piece := b.pieces.get fromCoords
  { b with pieces := (b.pieces.set fromCoords none).set toCoords piece }

/-- `Board::move_pieces`: move every member of the set one cell in
`direction`, traversing members in `for_each` order.  The Rust code
unwraps the neighbor (panicking at the board edge); an edge member is
modelled as a no-op, which coincides with the source whenever every
member actually has a neighbor. -/
def Board.movePieces (b : Board) (moveSet : GridSet) (d : Direction) : Board :=
  (moveSet.orderedMembers d).foldl
    (fun acc c =>
      match acc.neighbor c d with
      | some n => acc.movePiece c n
      | none => acc)
    b

def Board.removePiece (b : Board) (c : BoardCoords) : Board :=
  { b with pieces := b.pieces.set c none }

/-! ## Movement solver (from `src/model/movement.rs`) -/

def getManipulator (b : Board) (c : BoardCoords) : Option Particlz.Manipulator :=
  (b.pieces.get c).bind Piece.asManipulator

/-- The coordinates of a cell's manipulator beam targets of kind `Piece`
(in `iter_targets` order); empty for non-manipulator cells. -/
def Board.pieceTargets (b : Board) (c : BoardCoords) : List BoardCoords :=
  match getManipulator b c with
  | some m => (m.iterTargets.filter (fun t => t.kind = BeamTargetKind.Piece)).map (·.coords)
  | none => []

/-- The recursive `gather`: increment the node's reference count (insert
with count 1 when absent), then unless the node is already on the current
path, descend into each of its piece-kind beam targets with the node
pushed onto the path (the Rust `ScopedInsert` guard pops it on return, so
every sibling call sees the same path set).  The fuel argument makes the
recursion structural; `MoveSolver.new` passes `cellCount + 1`, which the
fuel-sufficiency theorem shows is enough on boards with valid targets.
`bumpCount` is the first step of every call: bump the node's reference
count, inserting it with count 1 when absent. -/
def bumpCount (graph : GridMap Nat) (c : BoardCoords) : GridMap Nat :=
  match graph.get c with
  | some n => graph.set c (some (n + 1))
  | none => graph.set c (some 1)

def gather (b : Board) : Nat → BoardCoords → GridMap Nat → Finset Nat → GridMap Nat
  | 0, _, graph, _ => graph
  | fuel + 1, c, graph, visited =>
    let graph := bumpCount graph c
    if b.dims.index c ∈ visited then
      graph
    else
      (b.pieceTargets c).foldl
        (fun g t => gather b fuel t g (insert (b.dims.index c) visited))
        graph

structure MoveSolver where
  board : Board
  leader : BoardCoords
  graph : GridMap Nat

def MoveSolver.new (b : Board) (leader : BoardCoords) : MoveSolver :=
  { board := b
    leader := leader
    graph := gather b (b.dims.cellCount + 1) leader (GridMap.like b.pieces) ∅ }

/-- `MoveSolver::get_border`. -/
def MoveSolver.getBorder (b : Board) (c : BoardCoords) (d : Direction) : Option Border :=
  (b.borders d.orientation.flip).get (c.toBorderCoords d)

/-- The Particle-specific failure conditions of `should_prune` (the body
of its `if let Some(Piece::Particle(..))` block): the destination tile's
tint is non-White and differs from the particle's, or the particle's own
cell holds a Collector tile. -/
def particleFail (b : Board) (c nbr : BoardCoords) : Bool :=
  match b.pieces.get c with
  | some (Piece.Particle p) =>
    (match b.tiles.get nbr with
     | some tile => decide (tile.tint ≠ Tint.White) && decide (tile.tint ≠ p.tint)
     | none => false)
    ||
    (match b.tiles.get c with
     | some tile => decide (tile.kind = TileKind.Collector)
     | none => false)
  | _ => false

/-- `MoveSolver::should_prune`: the drag-direction legality test. -/
def shouldPrune (b : Board) (graph : GridMap Nat) (c : BoardCoords) (d : Direction) : Bool :=
  if (MoveSolver.getBorder b c d).isSome then true
  else
    match b.neighbor c d with
    | none => true
    | some nbr =>
      if particleFail b c nbr then true
      else if (b.pieces.get nbr).isNone then false
      else (graph.get nbr).isNone

/-- On removal of a node, decrement the reference count of each of its
piece-kind beam targets still present in the graph (`*target_ref_count -= 1`;
the count is a `u8`, and the no-underflow claim is proved separately). -/
def decrementTargets (b : Board) (c : BoardCoords) (graph : GridMap Nat) : GridMap Nat :=
  (b.pieceTargets c).foldl
    (fun g t =>
      match g.get t with
      | some n => g.set t (some (n - 1))
      | none => g)
    graph

/-- One scan of `MoveSolver::prune`'s inner `for` loop over the listed
coordinates.  Returns the graph, the `pruned` flag, and whether the early
`return` for `stop_coords` fired. -/
def prunePassGo (b : Board) (d : Direction) (stop : Option BoardCoords) :
    List BoardCoords → GridMap Nat → Bool → GridMap Nat × Bool × Bool
  | [], graph, pruned => (graph, pruned, false)
  | c :: rest, graph, pruned =>
    match graph.get c with
    | none => prunePassGo b d stop rest graph pruned
    | some refCount =>
      if refCount = 0 || shouldPrune b graph c d then
        let graph1 := graph.set c none
        if stop = some c then
          (graph1, true, true)
        else
          prunePassGo b d stop rest (decrementTargets b c graph1) true
      else
        prunePassGo b d stop rest graph pruned

def prunePass (b : Board) (d : Direction) (stop : Option BoardCoords)
    (graph : GridMap Nat) : GridMap Nat × Bool × Bool :=
  prunePassGo b d stop b.dims.iter graph false

/-- The `while pruned` outer loop of `MoveSolver::prune`, with fuel (each
continuing pass removes at least one node, so `countSome graph + 1`
passes always reach the fixpoint). -/
def pruneLoop (b : Board) (d : Direction) (stop : Option BoardCoords) :
    Nat → GridMap Nat → GridMap Nat
  | 0, graph => graph
  | fuel + 1, graph =>
    match prunePass b d stop graph with
    | (graph1, pruned, stopped) =>
      if stopped then graph1
      else if pruned then pruneLoop b d stop fuel graph1
      else graph1

/-- Number of occupied cells of a grid map. -/
def GridMap.countSome {T : Type} (g : GridMap T) : Nat :=
  g.cells.countP Option.isSome

def MoveSolver.prune (s : MoveSolver) (d : Direction) (stop : Option BoardCoords) : GridMap Nat :=
  pruneLoop s.board d stop (s.graph.countSome + 1) s.graph

/-- `MoveSolver::can_move`: prune with an early stop at the leader, then
test whether the leader survived. -/
def MoveSolver.canMove (s : MoveSolver) (d : Direction) : Bool :=
  ((s.prune d (some s.leader)).get s.leader).isSome

/-- `MoveSolver::drag`: prune to completion; the surviving graph members
form the move set. -/
def MoveSolver.drag (s : MoveSolver) (d : Direction) : GridSet :=
  let graph := s.prune d none
  graph.iterCoords.foldl GridSet.insert (GridSet.like graph)

/-- `Board::compute_allowed_moves` (the solver is rebuilt by `clone` for
each direction, always from the same gathered graph). -/
def Board.computeAllowedMoves (b : Board) (c : BoardCoords) : List Direction :=
  Direction.all.filter (fun d => (MoveSolver.new b c).canMove d)

def Board.computeMoveSet (b : Board) (c : BoardCoords) (d : Direction) : GridSet :=
  (MoveSolver.new b c).drag d

/-! ## Support analysis (from `src/model/support.rs`) -/

/-- The seeding phase of `unsupported_pieces`: mark every piece as
unsupported and enqueue the pieces that sit directly on a tile.  The
queue `push` propagates its capacity assertion as `none`. -/
def supportSeed (b : Board) : List BoardCoords → GridSet → GridQueue →
    Option (GridSet × GridQueue)
  | [], unsupported, queue => some (unsupported, queue)
  | c :: rest, unsupported, queue =>
    let unsupported := unsupported.insert c
    if (b.tiles.get c).isSome then
      match queue.push c with
      | none => none
      | some queue1 => supportSeed b rest unsupported queue1
    else
      supportSeed b rest unsupported queue

/-- Push the still-unsupported piece-kind targets of a popped manipulator
cell (the body of the BFS loop after the `unsupported.remove`). -/
def supportPushTargets (b : Board) (c : BoardCoords) (unsupported : GridSet)
    (queue : GridQueue) : Option GridQueue :=
  (b.pieceTargets c).foldl
    (fun q t =>
      match q with
      | none => none
      | some q =>
        if unsupported.contains t then q.push t else some q)
    (some queue)

/-- The `while let Some(coords) = support_queue.pop()` BFS loop, with
fuel; `none` signals either the queue-capacity assertion firing or fuel
exhaustion. -/
def supportLoop (b : Board) : Nat → GridSet → GridQueue → Option GridSet
  | 0, _, _ => none
  | fuel + 1, unsupported, queue =>
    match queue.pop with
    | none => some unsupported
    | some (c, queue1) =>
      let unsupported := unsupported.remove c
      match supportPushTargets b c unsupported queue1 with
      | none => none
      | some queue2 => supportLoop b fuel unsupported queue2

/-- `unsupported_pieces` (`src/model/support.rs`): `none` models a panic
of the queue-capacity assertion (or, morally never, fuel exhaustion). -/
def unsupportedPieces (b : Board) : Option GridSet :=
  let unsupported := GridSet.like b.pieces
  let queue := GridQueue.forGrid unsupported
  match supportSeed b b.pieces.iterCoords unsupported queue with
  | none => none
  | some (unsupported, queue) =>
    supportLoop b ((b.dims.cellCount + 1) * (b.dims.cellCount + 1)) unsupported queue

/-! ## Level progress (from `src/model/level.rs`) -/

inductive LevelOutcome where
  | NoManipulatorsLeft
  | ParticleLost
  | Victory
deriving DecidableEq

/-- The derived `Ord` rank of `LevelOutcome` (declaration order). -/
def LevelOutcome.rank : LevelOutcome → Nat
  | .NoManipulatorsLeft => 0
  | .ParticleLost => 1
  | .Victory => 2

/-- `Option::max` under the derived order (`None < Some _`, then rank). -/
def outcomeMax (a b : Option LevelOutcome) : Option LevelOutcome :=
  match a, b with
  | none, b => b
  | some x, none => some x
  | some x, some y => if x.rank ≤ y.rank then some y else some x

structure LevelProgress where
  manipulatorsLeft : Nat
  uncollectedParticles : Nat
  outcome : Option LevelOutcome
deriving DecidableEq

/-- `LevelProgress::new`: count the manipulators, and the particles that
do not sit on a Collector tile (the tile's tint is not inspected). -/
def LevelProgress.new (b : Board) : LevelProgress :=
  let counts := b.pieces.iterCoords.foldl
    (fun (acc : Nat × Nat) c =>
      match b.pieces.get c with
      | some (Piece.Particle _) =>
        (match b.tiles.get c with
         | some tile => if tile.kind = TileKind.Collector then acc else (acc.1, acc.2 + 1)
         | none => (acc.1, acc.2 + 1))
      | some (Piece.Manipulator _) => (acc.1 + 1, acc.2)
      | none => acc)
    (0, 0)
  { manipulatorsLeft := counts.1, uncollectedParticles := counts.2, outcome := none }

/-- `LevelProgress::update_outcome`: `self.outcome = self.outcome.max(Some(outcome))`. -/
def LevelProgress.updateOutcome (s : LevelProgress) (o : LevelOutcome) : LevelProgress :=
  { s with outcome := outcomeMax s.outcome (some o) }

/-- `LevelProgress::particle_collected` (the `usize` decrement saturates
in this model; the Rust code would panic below zero). -/
def LevelProgress.particleCollected (s : LevelProgress) : LevelProgress :=
  let s := { s with uncollectedParticles := s.uncollectedParticles - 1 }
  if s.uncollectedParticles = 0 then s.updateOutcome LevelOutcome.Victory else s

/-- `LevelProgress::piece_lost`. -/
def LevelProgress.pieceLost (s : LevelProgress) (p : Piece) : LevelProgress :=
  let s :=
    match p with
    | Piece.Particle _ => s.updateOutcome LevelOutcome.ParticleLost
    | Piece.Manipulator _ => { s with manipulatorsLeft := s.manipulatorsLeft - 1 }
  if s.manipulatorsLeft = 0 then s.updateOutcome LevelOutcome.NoManipulatorsLeft else s

/-- An update event observed by the progress tracker. -/
inductive ProgressEvent where
  | particleCollected
  | pieceLost (p : Piece)

def LevelProgress.applyEvent (s : LevelProgress) : ProgressEvent → LevelProgress
  | .particleCollected => s.particleCollected
  | .pieceLost p => s.pieceLost p

def LevelProgress.applyEvents (s : LevelProgress) (evs : List ProgressEvent) : LevelProgress :=
  evs.foldl LevelProgress.applyEvent s

/-! ## PBC1 codec (from `src/model/pbc1.rs`) -/

inductive Pbc1DecodeError where
  | Signature
  | Base64
  | UnexpectedEnd
  | Version (v : Nat)
  | InvalidPiece (v : Nat)
  | InvalidBorder (v : Nat)
deriving DecidableEq

/-- Value of one base64 alphabet character (standard alphabet). -/
def b64Val (c : Char) : Option Nat :=
  let n := c.toNat
  if 65 ≤ n ∧ n ≤ 90 then some (n - 65)
  else if 97 ≤ n ∧ n ≤ 122 then some (n - 97 + 26)
  else if 48 ≤ n ∧ n ≤ 57 then some (n - 48 + 52)
  else if n = 43 then some 62
  else if n = 47 then some 63
  else none

/-- Decode one 4-character base64 group (possibly the final, padded one)
into 1 to 3 bytes; rejects misplaced padding, non-alphabet characters and
non-canonical trailing bits, as the `base64` crate's standard engine does. -/
def b64Group (c0 c1 c2 c3 : Char) (isLast : Bool) : Option (List Nat) :=
  match b64Val c0, b64Val c1 with
  | some v0, some v1 =>
    if c2 = '=' then
      if isLast ∧ c3 = '=' ∧ v1 % 16 = 0 then some [v0 * 4 + v1 / 16] else none
    else
      match b64Val c2 with
      | some v2 =>
        if c3 = '=' then
          if isLast ∧ v2 % 4 = 0 then
            some [v0 * 4 + v1 / 16, v1 % 16 * 16 + v2 / 4]
          else none
        else
          match b64Val c3 with
          | some v3 => some [v0 * 4 + v1 / 16, v1 % 16 * 16 + v2 / 4, v2 % 4 * 64 + v3]
          | none => none
      | none => none
  | _, _ => none

/-- Standard base64 decoding of a character list into bytes. -/
def b64Decode : List Char → Option (List Nat)
  | [] => some []
  | c0 :: c1 :: c2 :: c3 :: rest =>
    match b64Group c0 c1 c2 c3 (decide (rest = [])) with
    | some bytes =>
      match b64Decode rest with
      | some more => some (bytes ++ more)
      | none => none
    | none => none
  | _ => none

/-- Bit `i` of the little-endian bitstream over `bytes` (bit `i%8` of
byte `i/8`, least significant first), as read by `bitter::LittleEndianReader`. -/
def bitAt (bytes : List Nat) (i : Nat) : Nat :=
  bytes.getD (i / 8) 0 / 2 ^ (i % 8) % 2

/-- The value of `n` bits starting at stream position `pos`, LSB first. -/
def bitsVal (bytes : List Nat) (pos : Nat) : Nat → Nat
  | 0 => 0
  | n + 1 => bitAt bytes pos + 2 * bitsVal bytes (pos + 1) n

/-- `read_bits(n)`: `none` once the stream is exhausted
(`Pbc1DecodeError::UnexpectedEnd` at the call sites). -/
def readBits (bytes : List Nat) (pos n : Nat) : Option (Nat × Nat) :=
  if pos + n ≤ 8 * bytes.length then some (bitsVal bytes pos n, pos + n) else none

/-- Decode the optional-border code of one cell: the 3 read bits plus 1
give `v` in `1..=8`; `v % 3` is the horizontal code and `v / 3` the
vertical code, `0`=none, `1`=Wall, `2`=Window. -/
def borderOfCode : Nat → Option Border
  | 0 => none
  | 1 => some Border.Wall
  | _ => some Border.Window

/-- Decode one cell (presence flags, then tile, piece and border fields).
Yields the four per-cell entries and the new stream position. -/
def decodeCell (bytes : List Nat) (pos : Nat) :
    Except Pbc1DecodeError (Option Tile × Option Piece × Option Border × Option Border × Nat) := do
  let (flags, pos) ← match readBits bytes pos 3 with
    | some r => .ok r
    | none => .error Pbc1DecodeError.UnexpectedEnd
  let (tile, pos) ←
    if flags % 2 = 1 then
      match readBits bytes pos 3 with
      | some (t, pos) =>
        -- `from_repr(..).unwrap()`: `t >>> 2 < 2` and `t % 4 < 4`, so the
        -- fallback values below are unreachable.
        .ok (some (Tile.mk ((TileKind.fromRepr (t / 4)).getD TileKind.Platform)
          ((Tint.fromRepr (t % 4)).getD Tint.White)), pos)
      | none => .error Pbc1DecodeError.UnexpectedEnd
    else
      .ok ((none : Option Tile), pos)
  let (piece, pos) ←
    if flags / 2 % 2 = 1 then
      match readBits bytes pos 4 with
      | some (p, pos) =>
        if p < 3 then
          .ok (some (Piece.Particle ⟨(Tint.fromRepr (p + 1)).getD Tint.White⟩), pos)
        else if p < 13 then
          .ok (some (Piece.Manipulator (Manipulator.new ((Emitters.fromRepr (p - 3)).getD Emitters.Left))), pos)
        else
          .error (Pbc1DecodeError.InvalidPiece p)
      | none => .error Pbc1DecodeError.UnexpectedEnd
    else
      .ok ((none : Option Piece), pos)
  let (horz, vert, pos) ←
    if flags / 4 % 2 = 1 then
      match readBits bytes pos 3 with
      | some (v, pos) =>
        let code := v + 1
        -- `code / 3 ≤ 2` because `code ≤ 8`, so the Rust
        -- `InvalidBorder` arm is unreachable; it is kept for fidelity.
        if code / 3 ≤ 2 then
          .ok (borderOfCode (code % 3), borderOfCode (code / 3), pos)
        else
          .error (Pbc1DecodeError.InvalidBorder code)
      | none => .error Pbc1DecodeError.UnexpectedEnd
    else
      .ok ((none : Option Border), (none : Option Border), pos)
  .ok (tile, piece, horz, vert, pos)

/-- Decode the cells of one row (`cols` iterations of the inner loop). -/
def decodeRowCells (bytes : List Nat) :
    Nat → Nat →
    Except Pbc1DecodeError
      (List (Option Tile) × List (Option Piece) × List (Option Border) × List (Option Border) × Nat)
  | 0, pos => .ok ([], [], [], [], pos)
  | n + 1, pos => do
    let (tile, piece, horz, vert, pos) ← decodeCell bytes pos
    let (tiles, pieces, horzs, verts, pos) ← decodeRowCells bytes n pos
    .ok (tile :: tiles, piece :: pieces, horz :: horzs, vert :: verts, pos)

/-- Decode all rows: each row's cells, then the trailing-vertical-Wall
bit appended to that row's vertical borders. -/
def decodeRows (bytes : List Nat) (cols : Nat) :
    Nat → Nat →
    Except Pbc1DecodeError
      (List (Option Tile) × List (Option Piece) × List (Option Border) × List (Option Border) × Nat)
  | 0, pos => .ok ([], [], [], [], pos)
  | n + 1, pos => do
    let (tiles, pieces, horzs, verts, pos) ← decodeRowCells bytes cols pos
    let (endBit, pos) ← match readBits bytes pos 1 with
      | some r => .ok r
      | none => .error Pbc1DecodeError.UnexpectedEnd
    let rowEnd : Option Border := if endBit = 1 then some Border.Wall else none
    let (tiles1, pieces1, horzs1, verts1, pos) ← decodeRows bytes cols n pos
    .ok (tiles ++ tiles1, pieces ++ pieces1, horzs ++ horzs1, (verts ++ [rowEnd]) ++ verts1, pos)

/-- The trailing bottom-edge horizontal-Wall bits, one per column. -/
def decodeBottomBits (bytes : List Nat) :
    Nat → Nat → Except Pbc1DecodeError (List (Option Border) × Nat)
  | 0, pos => .ok ([], pos)
  | n + 1, pos => do
    let (bit, pos) ← match readBits bytes pos 1 with
      | some r => .ok r
      | none => .error Pbc1DecodeError.UnexpectedEnd
    let entry : Option Border := if bit = 1 then some Border.Wall else none
    let (rest, pos) ← decodeBottomBits bytes n pos
    .ok (entry :: rest, pos)

/-- Decode the bitstream payload of a PBC1 code (everything after the
base64 step of `pbc1::decode`). -/
def decodeBytes (bytes : List Nat) : Except Pbc1DecodeError Board := do
  let (version, pos) ← match readBits bytes 0 4 with
    | some r => .ok r
    | none => .error Pbc1DecodeError.UnexpectedEnd
  if version ≠ 1 then
    .error (Pbc1DecodeError.Version version)
  else do
    let (_flags, pos) ← match readBits bytes pos 4 with
      | some r => .ok r
      | none => .error Pbc1DecodeError.UnexpectedEnd
    let (cols, pos) ← match readBits bytes pos 4 with
      | some r => .ok r
      | none => .error Pbc1DecodeError.UnexpectedEnd
    let (rows, pos) ← match readBits bytes pos 4 with
      | some r => .ok r
      | none => .error Pbc1DecodeError.UnexpectedEnd
    let (tiles, pieces, horzs, verts, pos) ← decodeRows bytes cols rows pos
    let (bottom, _pos) ← decodeBottomBits bytes cols pos
    .ok { dims := ⟨rows, cols⟩
          tiles := ⟨⟨rows, cols⟩, tiles⟩
          horzBorders := ⟨⟨rows + 1, cols⟩, horzs ++ bottom⟩
          vertBorders := ⟨⟨rows, cols + 1⟩, verts⟩
          pieces := ⟨⟨rows, cols⟩, pieces⟩ }

/-- The `":PBC1:"` signature, as a character list. -/
def pbc1Sig : List Char := [':', 'P', 'B', 'C', '1', ':']

/-- `pbc1::decode` / `Board::from_pbc1` over the textual code (modelled
as a character list): check the signature, base64-decode the remainder,
then parse the bitstream. -/
def decode (code : List Char) : Except Pbc1DecodeError Board :=
  if code.take 6 ≠ pbc1Sig then
    .error Pbc1DecodeError.Signature
  else
    match b64Decode (code.drop 6) with
    | none => .error Pbc1DecodeError.Base64
    | some bytes => decodeBytes bytes

/-! ## Concrete boards used by witnesses and counterexamples (mirroring
the constructions in the repository's unit tests) -/

/-- The test helper `empty_board`: every cell gets a White Platform tile. -/
def emptyBoard (rows cols : Nat) : Board :=
  let b := Board.new rows cols
  b.dims.iter.foldl
    (fun acc c => { acc with tiles := acc.tiles.set c (some ⟨TileKind.Platform, Tint.White⟩) }) b

def addManipulator (b : Board) (c : BoardCoords) (e : Emitters) : Board :=
  { b with pieces := b.pieces.set c (some (Piece.Manipulator (Manipulator.new e))) }

def addParticle (b : Board) (c : BoardCoords) (t : Tint) : Board :=
  { b with pieces := b.pieces.set c (some (Piece.Particle ⟨t⟩)) }

def addTile (b : Board) (c : BoardCoords) (k : TileKind) (t : Tint) : Board :=
  { b with tiles := b.tiles.set c (some ⟨k, t⟩) }

/-- The four-manipulator beam ring of the `cycles` unit test, on a 4×4
all-platform board. -/
def ringBoard : Board :=
  let b := emptyBoard 4 4
  let b := addManipulator b ⟨1, 1⟩ Emitters.RightDown
  let b := addManipulator b ⟨1, 2⟩ Emitters.LeftDown
  let b := addManipulator b ⟨2, 1⟩ Emitters.RightUp
  let b := addManipulator b ⟨2, 2⟩ Emitters.LeftUp
  b.retargetBeams

/-- The four component grids agree with the board's dimensions and have
the dense sizes `Board::new` and the decoder allocate. -/
def Board.wellFormed (b : Board) : Prop :=
  b.tiles.dims = b.dims ∧ b.pieces.dims = b.dims ∧
  b.horzBorders.dims = ⟨b.dims.rows + 1, b.dims.cols⟩ ∧
  b.vertBorders.dims = ⟨b.dims.rows, b.dims.cols + 1⟩ ∧
  b.tiles.cells.length = b.dims.cellCount ∧
  b.pieces.cells.length = b.dims.cellCount ∧
  b.horzBorders.cells.length = (b.dims.rows + 1) * b.dims.cols ∧
  b.vertBorders.cells.length = b.dims.rows * (b.dims.cols + 1)

instance (b : Board) : Decidable b.wellFormed := by
  unfold Board.wellFormed; infer_instance

/-! ## Claim C1: characterization of the drag-direction legality test -/

/-- The legality-failure conditions exactly as the movement-solver prunes
them, with the border condition covering any border kind (Wall or
Window). -/
def dragBlocked (b : Board) (graph : GridMap Nat) (c : BoardCoords) (d : Direction) : Prop :=
  (MoveSolver.getBorder b c d).isSome = true
  ∨ b.neighbor c d = none
  ∨ (∃ nbr p, b.neighbor c d = some nbr ∧ b.pieces.get c = some (Piece.Particle p) ∧
      ((∃ tile, b.tiles.get nbr = some tile ∧ tile.tint ≠ Tint.White ∧ tile.tint ≠ p.tint)
        ∨ (∃ tile, b.tiles.get c = some tile ∧ tile.kind = TileKind.Collector)))
  ∨ (∃ nbr, b.neighbor c d = some nbr ∧ (b.pieces.get nbr).isSome = true ∧ graph.get nbr = none)

/-- The particle block of `should_prune` fires exactly when the node is
a Particle and one of its two tint/collector conditions holds. -/
theorem particleFail_iff (b : Board) (c nbr : BoardCoords) :
    particleFail b c nbr = true ↔
      ∃ p, b.pieces.get c = some (Piece.Particle p) ∧
        ((∃ tile, b.tiles.get nbr = some tile ∧ tile.tint ≠ Tint.White ∧ tile.tint ≠ p.tint)
          ∨ (∃ tile, b.tiles.get c = some tile ∧ tile.kind = TileKind.Collector)) := by
  unfold particleFail
  rcases hp : b.pieces.get c with _ | piece
  · simp
  · cases piece with
    | Manipulator m => simp
    | Particle p =>
      constructor
      · intro h
        refine ⟨p, rfl, ?_⟩
        rcases Bool.or_eq_true_iff.mp h with h1 | h2
        · left
          rcases ht : b.tiles.get nbr with _ | tile
          · rw [ht] at h1; simp at h1
          · rw [ht] at h1
            simp only [Bool.and_eq_true, decide_eq_true_eq] at h1
            exact ⟨tile, rfl, h1.1, h1.2⟩
        · right
          rcases ht : b.tiles.get c with _ | tile
          · rw [ht] at h2; simp at h2
          · rw [ht] at h2
            simp only [decide_eq_true_eq] at h2
            exact ⟨tile, rfl, h2⟩
      · rintro ⟨p2, hp2, hcond⟩
        simp only [Option.some.injEq, Piece.Particle.injEq] at hp2
        subst hp2
        rcases hcond with ⟨tile, ht, h1, h2⟩ | ⟨tile, ht, hk⟩
        · rw [ht]
          simp [h1, h2]
        · rw [ht]
          simp [hk]

/-- Claim C1 (amended): a graph node fails `should_prune`'s legality test
exactly when its border slot in the drag direction holds any border (Wall
or Window — not only a Wall, as the claim stated), or it has no neighbor
in that direction, or it is a Particle whose destination tile's tint is
non-White and different from its own or which sits on a Collector tile,
or the destination cell holds a piece outside the candidate graph. -/
theorem shouldPrune_iff_dragBlocked (b : Board) (graph : GridMap Nat)
    (c : BoardCoords) (d : Direction) :
    shouldPrune b graph c d = true ↔ dragBlocked b graph c d := by
  unfold shouldPrune dragBlocked
  by_cases hB : (MoveSolver.getBorder b c d).isSome = true
  · rw [if_pos hB]
    exact iff_of_true rfl (Or.inl hB)
  · rw [if_neg hB]
    rcases hn : b.neighbor c d with _ | nbr
    · exact iff_of_true rfl (Or.inr (Or.inl rfl))
    · dsimp only
      by_cases hPF : particleFail b c nbr = true
      · rw [if_pos hPF]
        refine iff_of_true rfl (Or.inr (Or.inr (Or.inl ?_)))
        obtain ⟨p, hp, hcond⟩ := (particleFail_iff b c nbr).mp hPF
        exact ⟨nbr, p, rfl, hp, hcond⟩
      · rw [if_neg hPF]
        rcases hq : b.pieces.get nbr with _ | q
        · refine iff_of_false (by simp) ?_
          rintro (h1 | h2 | ⟨nbr1, p, h3, hp3, hcond3⟩ | ⟨nbr1, h4, hq4, _⟩)
          · exact hB h1
          · exact Option.noConfusion h2
          · injection h3 with h3
            subst h3
            exact hPF ((particleFail_iff b c nbr).mpr ⟨p, hp3, hcond3⟩)
          · cases h4
            rw [hq] at hq4
            simp at hq4
        · simp only [Option.isNone_some, Bool.false_eq_true, if_false]
          constructor
          · intro hg
            refine Or.inr (Or.inr (Or.inr ⟨nbr, rfl, ?_, ?_⟩))
            · rw [hq]; rfl
            · exact Option.isNone_iff_eq_none.mp hg
          · rintro (h1 | h2 | ⟨nbr1, p, h3, hp3, hcond3⟩ | ⟨nbr1, h4, _, hg⟩)
            · exact absurd h1 hB
            · exact Option.noConfusion h2
            · injection h3 with h3
              subst h3
              exact absurd ((particleFail_iff b c nbr).mpr ⟨p, hp3, hcond3⟩) hPF
            · cases h4
              exact Option.isNone_iff_eq_none.mpr hg

/-- The board refuting claim C1 as stated: a lone manipulator at (0,0)
with a Window (not a Wall) on the vertical border to its right. -/
def windowBoard : Board :=
  let b := emptyBoard 1 2
  let b := addManipulator b ⟨0, 0⟩ Emitters.Right
  let b := { b with vertBorders := b.vertBorders.set ⟨0, 1⟩ (some Border.Window) }
  b.retargetBeams

/-- Claim C1 as stated is false: on `windowBoard` the node (0,0) fails
the legality test for Right although its border slot holds a Window
rather than a Wall, a neighbor exists, the node is not a Particle, and
the destination cell is empty — none of the claim's listed conditions. -/
theorem shouldPrune_window_counterexample :
    shouldPrune windowBoard (MoveSolver.new windowBoard ⟨0, 0⟩).graph ⟨0, 0⟩ Direction.Right = true
    ∧ MoveSolver.getBorder windowBoard ⟨0, 0⟩ Direction.Right ≠ some Border.Wall
    ∧ windowBoard.neighbor ⟨0, 0⟩ Direction.Right = some ⟨0, 1⟩
    ∧ (getManipulator windowBoard ⟨0, 0⟩).isSome = true
    ∧ windowBoard.pieces.get ⟨0, 1⟩ = none := by
  decide

/-! ## Claim C2: the uncollected-particle counter of `LevelProgress::new` -/

/-- What `LevelProgress::new` actually counts: particles whose own cell
does not hold a Collector tile, of any tint. -/
def particlesOffCollector (b : Board) : Nat :=
  b.dims.iter.countP (fun c =>
    match b.pieces.get c, b.tiles.get c with
    | some (Piece.Particle _), some tile => decide (tile.kind ≠ TileKind.Collector)
    | some (Piece.Particle _), none => true
    | _, _ => false)

/-- What claim C2 says is counted: particles not resting on a Collector
tile whose tint is White or matches the particle's tint. -/
def uncollectedPerClaim (b : Board) : Nat :=
  b.dims.iter.countP (fun c =>
    match b.pieces.get c, b.tiles.get c with
    | some (Piece.Particle p), some tile =>
      !(decide (tile.kind = TileKind.Collector) &&
        (decide (tile.tint = Tint.White) || decide (tile.tint = p.tint)))
    | some (Piece.Particle _), none => true
    | _, _ => false)

/-- The accumulating fold of `LevelProgress::new`, summed over any cell
list: the second component counts the particles off Collector tiles. -/
theorem levelProgress_fold_snd (b : Board) (l : List BoardCoords) (acc : Nat × Nat) :
    (l.foldl
      (fun (acc : Nat × Nat) c =>
        match b.pieces.get c with
        | some (Piece.Particle _) =>
          (match b.tiles.get c with
           | some tile => if tile.kind = TileKind.Collector then acc else (acc.1, acc.2 + 1)
           | none => (acc.1, acc.2 + 1))
        | some (Piece.Manipulator _) => (acc.1 + 1, acc.2)
        | none => acc)
      acc).2
    = acc.2 + l.countP (fun c =>
        match b.pieces.get c, b.tiles.get c with
        | some (Piece.Particle _), some tile => decide (tile.kind ≠ TileKind.Collector)
        | some (Piece.Particle _), none => true
        | _, _ => false) := by
  induction l generalizing acc with
  | nil => simp
  | cons c rest ih =>
    rw [List.foldl_cons, List.countP_cons, ih]
    rcases hp : b.pieces.get c with _ | piece
    · simp [hp]
    · cases piece with
      | Particle p =>
        rcases ht : b.tiles.get c with _ | tile
        · simp [hp, ht, Nat.add_assoc, Nat.add_comm 1]
        · by_cases hk : tile.kind = TileKind.Collector
          · simp [hp, ht, hk]
          · simp [hp, ht, hk, Nat.add_assoc, Nat.add_comm 1]
      | Manipulator m => simp [hp]

/-- `countP` only depends on the predicate's values on the list. -/
theorem countP_eq_of {α : Type} (l : List α) (p q : α → Bool) (h : ∀ a ∈ l, p a = q a) :
    l.countP p = l.countP q := by
  induction l with
  | nil => rfl
  | cons a t ih =>
    rw [List.countP_cons, List.countP_cons, h a (by simp),
      ih (fun x hx => h x (by simp [hx]))]

theorem index_coordOf (d : Dimensions) (i : Nat) : d.index (d.coordOf i) = i := by
  show i / d.cols * d.cols + i % d.cols = i
  rw [Nat.mul_comm]
  exact Nat.div_add_mod i d.cols

theorem get_coordOf {T : Type} (g : GridMap T) (d : Dimensions) (hg : g.dims = d) (i : Nat) :
    g.get (d.coordOf i) = g.cells.getD i none := by
  unfold GridMap.get
  rw [hg, index_coordOf]

/-- Claim C2 (amended): on a well-formed board, `LevelProgress::new` sets
the uncollected counter to the number of Particle pieces that do not rest
on a Collector tile — regardless of the Collector's tint (the claim's
tint proviso is not checked by the code). -/
theorem levelProgress_new_uncollected (b : Board)
    (hdims : b.pieces.dims = b.dims) (hlen : b.pieces.cells.length = b.dims.cellCount) :
    (LevelProgress.new b).uncollectedParticles = particlesOffCollector b := by
  unfold LevelProgress.new particlesOffCollector
  dsimp only
  rw [levelProgress_fold_snd, Nat.zero_add]
  unfold GridMap.iterCoords Dimensions.iter
  rw [hdims, hlen]
  show ((((List.range b.dims.cellCount).filter _).map b.dims.coordOf).countP _)
    = (((List.range b.dims.cellCount).map b.dims.coordOf).countP _)
  rw [List.countP_map, List.countP_map, List.countP_filter]
  refine countP_eq_of _ _ _ (fun i _ => ?_)
  dsimp only [Function.comp]
  rw [get_coordOf b.pieces b.dims hdims]
  rcases hp : b.pieces.cells.getD i none with _ | piece
  · simp
  · cases piece <;> simp

/-- The board refuting claim C2 as stated: a Green particle resting on a
Red Collector tile. -/
def mismatchCollectorBoard : Board :=
  let b := Board.new 1 1
  let b := addTile b ⟨0, 0⟩ TileKind.Collector Tint.Red
  addParticle b ⟨0, 0⟩ Tint.Green

/-- Claim C2 as stated is false: on `mismatchCollectorBoard` the code
counts zero uncollected particles, while the claim's tint-sensitive count
is one (it treats a particle on a differently-tinted Collector as
uncollected). -/
theorem levelProgress_new_tint_counterexample :
    (LevelProgress.new mismatchCollectorBoard).uncollectedParticles = 0
    ∧ uncollectedPerClaim mismatchCollectorBoard = 1 := by
  decide

/-! ## Claim C3: outcome severity ordering -/

/-- Severity of a stored outcome (`None` below every `Some`). -/
def rankOpt : Option LevelOutcome → Nat
  | none => 0
  | some o => o.rank + 1

/-- Claim C3: `update_outcome` replaces the stored outcome exactly when
the new outcome ranks strictly higher (part 1); hence the stored outcome
never decreases in severity across any event sequence (part 2); and when
a loss condition and Victory fire in the same update — in either order —
the final outcome is Victory (parts 3–6). -/
theorem outcome_severity_order :
    (∀ (s : LevelProgress) (o : LevelOutcome),
      (s.updateOutcome o).outcome =
        if rankOpt s.outcome < rankOpt (some o) then some o else s.outcome)
    ∧ (∀ (s : LevelProgress) (evs : List ProgressEvent),
        rankOpt s.outcome ≤ rankOpt (s.applyEvents evs).outcome)
    ∧ (LevelProgress.applyEvents ⟨1, 1, none⟩
        [ProgressEvent.pieceLost (Piece.Manipulator (Manipulator.new Emitters.Left)),
         ProgressEvent.particleCollected]).outcome = some LevelOutcome.Victory
    ∧ (LevelProgress.applyEvents ⟨1, 1, none⟩
        [ProgressEvent.particleCollected,
         ProgressEvent.pieceLost (Piece.Manipulator (Manipulator.new Emitters.Left))]).outcome
        = some LevelOutcome.Victory
    ∧ (LevelProgress.applyEvents ⟨1, 1, none⟩
        [ProgressEvent.pieceLost (Piece.Particle ⟨Tint.Green⟩),
         ProgressEvent.particleCollected]).outcome = some LevelOutcome.Victory
    ∧ (LevelProgress.applyEvents ⟨1, 1, none⟩
        [ProgressEvent.particleCollected,
         ProgressEvent.pieceLost (Piece.Particle ⟨Tint.Green⟩)]).outcome
        = some LevelOutcome.Victory := by
  have hupd : ∀ (s : LevelProgress) (o : LevelOutcome),
      (s.updateOutcome o).outcome =
        if rankOpt s.outcome < rankOpt (some o) then some o else s.outcome := by
    intro s o
    unfold LevelProgress.updateOutcome outcomeMax
    rcases s.outcome with _ | x
    · simp [rankOpt]
    · cases x <;> cases o <;> simp [rankOpt, LevelOutcome.rank]
  have hmono1 : ∀ (s : LevelProgress) (e : ProgressEvent),
      rankOpt s.outcome ≤ rankOpt (s.applyEvent e).outcome := by
    have hup : ∀ (s : LevelProgress) (o : LevelOutcome),
        rankOpt s.outcome ≤ rankOpt (s.updateOutcome o).outcome := by
      intro s o
      rw [hupd]
      split
      · next h => exact Nat.le_of_lt h
      · exact Nat.le_refl _
    intro s e
    cases e with
    | particleCollected =>
      unfold LevelProgress.applyEvent LevelProgress.particleCollected
      dsimp only
      split
      · exact hup _ _
      · exact Nat.le_refl _
    | pieceLost p =>
      unfold LevelProgress.applyEvent LevelProgress.pieceLost
      cases p with
      | Particle q =>
        dsimp only
        split
        · exact Nat.le_trans (hup _ _) (hup _ _)
        · exact hup _ _
      | Manipulator m =>
        dsimp only
        split
        · exact hup _ _
        · exact Nat.le_refl _
  refine ⟨hupd, ?_, by decide, by decide, by decide, by decide⟩
  intro s evs
  induction evs generalizing s with
  | nil => exact Nat.le_refl _
  | cons e rest ih =>
    exact Nat.le_trans (hmono1 s e) (ih (s.applyEvent e))


/-! ## Claim C5: PBC1 decode validation -/

/-- Payload bytes of a 1×1 board whose single cell carries piece code
`k`: header `version=1, flags=0, cols=1, rows=1`, presence flags `010`
(piece only), then the 4-bit piece code, the row's trailing-border bit
and one bottom-border bit, all zero. -/
def piecePayload (k : Nat) : List Nat := [1, 0x11, 8 * k + 2, 0]

/-- The board that claim C5 expects from `piecePayload k` for `k < 13`:
a 1×1 board whose only piece is the decoded one. -/
def expectedPieceBoard (p : Piece) : Board :=
  { dims := ⟨1, 1⟩
    tiles := ⟨⟨1, 1⟩, [none]⟩
    horzBorders := ⟨⟨2, 1⟩, [none, none]⟩
    vertBorders := ⟨⟨1, 2⟩, [none, none]⟩
    pieces := ⟨⟨1, 1⟩, [some p]⟩ }

/-- The piece-code mapping stated by claim C5: codes 0–2 are Particles
tinted Green/Yellow/Red, codes 3–12 are the Manipulator emitter
combinations in enumeration order, higher codes are invalid. -/
def pieceCodeResult (k : Nat) : Except Pbc1DecodeError Board :=
  if k < 3 then
    .ok (expectedPieceBoard (Piece.Particle
      ⟨match k with | 0 => Tint.Green | 1 => Tint.Yellow | _ => Tint.Red⟩))
  else if k < 13 then
    .ok (expectedPieceBoard (Piece.Manipulator
      (Manipulator.new ((Emitters.fromRepr (k - 3)).getD Emitters.Left))))
  else
    .error (Pbc1DecodeError.InvalidPiece k)

/-- Structural decidable equality for `Except` results. -/
def exceptDecEq {e a : Type} [DecidableEq e] [DecidableEq a] : DecidableEq (Except e a)
  | .ok x, .ok y =>
    if h : x = y then isTrue (h ▸ rfl) else isFalse (fun hh => h (by injection hh))
  | .error x, .error y =>
    if h : x = y then isTrue (h ▸ rfl) else isFalse (fun hh => h (by injection hh))
  | .ok _, .error _ => isFalse (fun h => Except.noConfusion h)
  | .error _, .ok _ => isFalse (fun h => Except.noConfusion h)

instance {e a : Type} [DecidableEq e] [DecidableEq a] : DecidableEq (Except e a) :=
  exceptDecEq

/-- The first four bits of a nonempty stream are the low nibble of its
first byte. -/
theorem readBits_head (b0 : Nat) (bs : List Nat) :
    readBits (b0 :: bs) 0 4 = some (b0 % 16, 4) := by
  unfold readBits
  rw [if_pos (by simp; omega)]
  have hb : bitsVal (b0 :: bs) 0 4 = b0 % 16 := by
    show bitAt (b0 :: bs) 0 + 2 * (bitAt (b0 :: bs) 1 + 2 * (bitAt (b0 :: bs) 2 +
      2 * (bitAt (b0 :: bs) 3 + 2 * 0))) = b0 % 16
    unfold bitAt
    norm_num
    omega
  rw [hb]

/-- Claim C5: `from_pbc1` validation.  (1) Any input without the
`:PBC1:` prefix yields the Signature error.  (2) The concrete valid
payload `piecePayload 3` decodes, and every proper prefix of it yields
UnexpectedEnd.  (3) Whenever the first 4-bit field differs from 1 the
result is that Version error.  (4) For each of the sixteen piece codes,
decoding yields exactly the piece (or InvalidPiece error) the claim's
mapping prescribes. -/
theorem pbc1_decode_validation :
    (∀ s : List Char, s.take 6 ≠ pbc1Sig → decode s = .error Pbc1DecodeError.Signature)
    ∧ ((decodeBytes (piecePayload 3)).isOk = true
       ∧ ∀ k, k < (piecePayload 3).length →
           decodeBytes ((piecePayload 3).take k) = .error Pbc1DecodeError.UnexpectedEnd)
    ∧ (∀ (b0 : Nat) (bs : List Nat), b0 % 16 ≠ 1 →
        decodeBytes (b0 :: bs) = .error (Pbc1DecodeError.Version (b0 % 16)))
    ∧ (∀ k, k < 16 → decodeBytes (piecePayload k) = pieceCodeResult k) := by
  refine ⟨?_, ⟨by decide, by decide⟩, ?_, by decide⟩
  · intro s hs
    unfold decode
    rw [if_pos hs]
  · intro b0 bs hv
    unfold decodeBytes
    rw [readBits_head]
    show (if b0 % 16 ≠ 1 then Except.error (Pbc1DecodeError.Version (b0 % 16)) else _) = _
    rw [if_pos hv]

/-- Witness for claim C5: the signature branch at the concrete input
`"hi"` and the version branch at the concrete byte `2`. -/
theorem pbc1_decode_validation_witness :
    decode ['h', 'i'] = .error Pbc1DecodeError.Signature
    ∧ decodeBytes [2] = .error (Pbc1DecodeError.Version 2) := by
  constructor
  · exact pbc1_decode_validation.1 ['h', 'i'] (by decide)
  · have h := pbc1_decode_validation.2.2.1 2 [] (by decide)
    simpa using h

/-! ## Claim C8: support analysis -/

/-- A fully packed 2×2 board: four manipulators, each on a tile.  The
BFS queue (capacity `rows*cols = 4`) receives four seeds, and processing
the first pop pushes two more entries while only one slot is free. -/
def packedBoard : Board :=
  let b := emptyBoard 2 2
  let b := addManipulator b ⟨0, 0⟩ Emitters.RightDown
  let b := addManipulator b ⟨0, 1⟩ Emitters.RightDown
  let b := addManipulator b ⟨1, 0⟩ Emitters.RightDown
  let b := addManipulator b ⟨1, 1⟩ Emitters.RightDown
  b.retargetBeams

/-- Claim C8 fails on the code: on `packedBoard` every piece rests on a
tile (so the claim demands the empty unsupported set), but
`unsupported_pieces` hits the ring-buffer queue's capacity assertion
(modelled as `none`) instead of returning any set. -/
theorem unsupportedPieces_queue_overflow :
    unsupportedPieces packedBoard = none
    ∧ (packedBoard.pieces.iterCoords.all
        (fun c => (packedBoard.tiles.get c).isSome)) = true := by
  decide

/-- Witness for claim C2's amended theorem at a concrete well-formed
board. -/
theorem levelProgress_new_uncollected_witness :
    mismatchCollectorBoard.pieces.dims = mismatchCollectorBoard.dims
    ∧ mismatchCollectorBoard.pieces.cells.length = mismatchCollectorBoard.dims.cellCount
    ∧ (LevelProgress.new mismatchCollectorBoard).uncollectedParticles
        = particlesOffCollector mismatchCollectorBoard :=
  ⟨by decide, by decide,
    levelProgress_new_uncollected mismatchCollectorBoard (by decide) (by decide)⟩

/-! ## Claim C4: beam targeting finds the first obstruction -/

/-- `n`-fold iteration of `Board::neighbor` in a fixed direction. -/
def nthNeighbor (b : Board) (d : Direction) : Nat → BoardCoords → Option BoardCoords
  | 0, c => some c
  | n + 1, c =>
    match b.neighbor c d with
    | none => none
    | some x => nthNeighbor b d n x

/-- Whether the border slot adjacent to `c` in direction `d` holds a
Wall (a Window slot yields `false`: it does not stop a beam). -/
def wallAt (b : Board) (c : BoardCoords) (d : Direction) : Bool :=
  (b.borders d.orientation.flip).get (c.toBorderCoords d) = some Border.Wall

/-- Number of loop iterations `find_beam_target` may still take from `c`
(distance to the board edge in the scan direction). -/
def beamSteps (b : Board) (d : Direction) (c : BoardCoords) : Nat :=
  match d with
  | .Up => c.row
  | .Left => c.col
  | .Down => b.dims.rows - 1 - c.row
  | .Right => b.dims.cols - 1 - c.col

theorem neighbor_contains (b : Board) (c x : BoardCoords) (d : Direction)
    (hc : b.dims.contains c = true) (hx : b.neighbor c d = some x) :
    b.dims.contains x = true := by
  unfold Dimensions.contains at hc ⊢
  simp only [Bool.and_eq_true, decide_eq_true_eq] at hc ⊢
  cases d with
  | Up =>
    unfold Board.neighbor at hx
    by_cases h0 : c.row = 0
    · rw [if_pos h0] at hx; exact Option.noConfusion hx
    · rw [if_neg h0] at hx
      injection hx with hx
      subst hx
      exact ⟨Nat.lt_of_le_of_lt (Nat.sub_le _ _) hc.1, hc.2⟩
  | Left =>
    unfold Board.neighbor at hx
    by_cases h0 : c.col = 0
    · rw [if_pos h0] at hx; exact Option.noConfusion hx
    · rw [if_neg h0] at hx
      injection hx with hx
      subst hx
      exact ⟨hc.1, Nat.lt_of_le_of_lt (Nat.sub_le _ _) hc.2⟩
  | Down =>
    unfold Board.neighbor at hx
    by_cases h0 : c.row + 1 < b.dims.rows
    · rw [if_pos h0] at hx
      injection hx with hx
      subst hx
      exact ⟨h0, hc.2⟩
    · rw [if_neg h0] at hx; exact Option.noConfusion hx
  | Right =>
    unfold Board.neighbor at hx
    by_cases h0 : c.col + 1 < b.dims.cols
    · rw [if_pos h0] at hx
      injection hx with hx
      subst hx
      exact ⟨hc.1, h0⟩
    · rw [if_neg h0] at hx; exact Option.noConfusion hx

theorem neighbor_beamSteps (b : Board) (c x : BoardCoords) (d : Direction)
    (hx : b.neighbor c d = some x) :
    beamSteps b d x + 1 = beamSteps b d c := by
  cases d with
  | Up =>
    unfold Board.neighbor at hx
    by_cases h0 : c.row = 0
    · rw [if_pos h0] at hx; exact Option.noConfusion hx
    · rw [if_neg h0] at hx
      injection hx with hx
      subst hx
      show c.row - 1 + 1 = c.row
      omega
  | Left =>
    unfold Board.neighbor at hx
    by_cases h0 : c.col = 0
    · rw [if_pos h0] at hx; exact Option.noConfusion hx
    · rw [if_neg h0] at hx
      injection hx with hx
      subst hx
      show c.col - 1 + 1 = c.col
      omega
  | Down =>
    unfold Board.neighbor at hx
    by_cases h0 : c.row + 1 < b.dims.rows
    · rw [if_pos h0] at hx
      injection hx with hx
      subst hx
      show b.dims.rows - 1 - (c.row + 1) + 1 = b.dims.rows - 1 - c.row
      omega
    · rw [if_neg h0] at hx; exact Option.noConfusion hx
  | Right =>
    unfold Board.neighbor at hx
    by_cases h0 : c.col + 1 < b.dims.cols
    · rw [if_pos h0] at hx
      injection hx with hx
      subst hx
      show b.dims.cols - 1 - (c.col + 1) + 1 = b.dims.cols - 1 - c.col
      omega
    · rw [if_neg h0] at hx; exact Option.noConfusion hx

/-- The fueled ray-cast, with enough fuel, halts at the first
obstruction along the scan path. -/
theorem findBeamTargetGo_spec (b : Board) (d : Direction) :
    ∀ (fuel : Nat) (c : BoardCoords), b.dims.contains c = true →
      beamSteps b d c + 1 ≤ fuel →
      ∃ n x, nthNeighbor b d n c = some x
        ∧ (∀ i, i < n → ∀ y, nthNeighbor b d i c = some y →
            wallAt b y d = false ∧ ∃ z, b.neighbor y d = some z ∧ b.pieces.get z = none)
        ∧ ((wallAt b x d = true
             ∧ b.findBeamTargetGo d fuel c = some (BeamTarget.border (x.toBorderCoords d)))
          ∨ (wallAt b x d = false ∧ b.neighbor x d = none
             ∧ b.findBeamTargetGo d fuel c = some (BeamTarget.border (x.toBorderCoords d)))
          ∨ (wallAt b x d = false
             ∧ ∃ z, b.neighbor x d = some z ∧ (b.pieces.get z).isSome = true
             ∧ b.findBeamTargetGo d fuel c = some (BeamTarget.piece z))) := by
  intro fuel
  induction fuel with
  | zero => intro c _ hf; omega
  | succ fuel ih =>
    intro c hc hf
    by_cases hW : (b.borders d.orientation.flip).get (c.toBorderCoords d) = some Border.Wall
    · refine ⟨0, c, rfl, fun i hi => absurd hi (Nat.not_lt_zero i),
        Or.inl ⟨by simp [wallAt, hW], ?_⟩⟩
      unfold Board.findBeamTargetGo
      rw [if_pos hW]
    · rcases hn : b.neighbor c d with _ | nbr
      · refine ⟨0, c, rfl, fun i hi => absurd hi (Nat.not_lt_zero i),
          Or.inr (Or.inl ⟨by simp [wallAt, hW], hn, ?_⟩)⟩
        unfold Board.findBeamTargetGo
        rw [if_neg hW, hn]
      · by_cases hp : (b.pieces.get nbr).isSome = true
        · refine ⟨0, c, rfl, fun i hi => absurd hi (Nat.not_lt_zero i),
            Or.inr (Or.inr ⟨by simp [wallAt, hW], nbr, hn, hp, ?_⟩)⟩
          unfold Board.findBeamTargetGo
          rw [if_neg hW, hn]
          dsimp only
          rw [if_pos hp]
        · have hc2 : b.dims.contains nbr = true := neighbor_contains b c nbr d hc hn
          have hs : beamSteps b d nbr + 1 = beamSteps b d c := neighbor_beamSteps b c nbr d hn
          have hf2 : beamSteps b d nbr + 1 ≤ fuel := by omega
          obtain ⟨n, x, hx, hscan, hcase⟩ := ih nbr hc2 hf2
          have hnone : b.pieces.get nbr = none := by
            rcases h2 : b.pieces.get nbr with _ | v
            · rfl
            · rw [h2] at hp; simp at hp
          have hgo : b.findBeamTargetGo d (fuel + 1) c = b.findBeamTargetGo d fuel nbr := by
            unfold Board.findBeamTargetGo
            rw [if_neg hW, hn]
            dsimp only
            rw [if_neg hp]
            cases fuel <;> rfl
          have hnth : ∀ m, nthNeighbor b d (m + 1) c = nthNeighbor b d m nbr := by
            intro m
            show (match b.neighbor c d with
              | none => none
              | some x => nthNeighbor b d m x) = nthNeighbor b d m nbr
            rw [hn]
          refine ⟨n + 1, x, ?_, ?_, ?_⟩
          · rw [hnth n]; exact hx
          · intro i hi y hy
            cases i with
            | zero =>
              have hy2 : c = y := by
                have : some c = some y := hy
                injection this
              subst hy2
              exact ⟨by simp [wallAt, hW], nbr, hn, hnone⟩
            | succ j =>
              rw [hnth j] at hy
              exact hscan j (by omega) y hy
          · rw [hgo]
            exact hcase

/-- Claim C4: from any in-bounds start, `find_beam_target` returns the
first obstruction along the cell-by-cell scan: at each visited cell a
Wall in the adjacent border slot stops the beam there (a Window does
not), stepping off the board stops it at the boundary slot, a piece in
the next cell stops it there, and otherwise the scan continues — with
the Wall check taking precedence at every step. -/
theorem findBeamTarget_first_obstruction (b : Board) (c : BoardCoords) (d : Direction)
    (hc : b.dims.contains c = true) :
    ∃ n x, nthNeighbor b d n c = some x
      ∧ (∀ i, i < n → ∀ y, nthNeighbor b d i c = some y →
          wallAt b y d = false ∧ ∃ z, b.neighbor y d = some z ∧ b.pieces.get z = none)
      ∧ ((wallAt b x d = true
           ∧ b.findBeamTarget c d = some (BeamTarget.border (x.toBorderCoords d)))
        ∨ (wallAt b x d = false ∧ b.neighbor x d = none
           ∧ b.findBeamTarget c d = some (BeamTarget.border (x.toBorderCoords d)))
        ∨ (wallAt b x d = false
           ∧ ∃ z, b.neighbor x d = some z ∧ (b.pieces.get z).isSome = true
           ∧ b.findBeamTarget c d = some (BeamTarget.piece z))) := by
  have hbound : beamSteps b d c + 1 ≤ b.dims.rows + b.dims.cols + 1 := by
    unfold Dimensions.contains at hc
    simp only [Bool.and_eq_true, decide_eq_true_eq] at hc
    cases d <;> dsimp only [beamSteps] <;> omega
  exact findBeamTargetGo_spec b d (b.dims.rows + b.dims.cols + 1) c hc hbound

/-- Witness for claim C4 at the concrete ring board and start (1,1)
scanning Right. -/
theorem findBeamTarget_first_obstruction_witness :
    ringBoard.dims.contains ⟨1, 1⟩ = true
    ∧ (∃ n x, nthNeighbor ringBoard Direction.Right n ⟨1, 1⟩ = some x
      ∧ (∀ i, i < n → ∀ y, nthNeighbor ringBoard Direction.Right i ⟨1, 1⟩ = some y →
          wallAt ringBoard y Direction.Right = false
          ∧ ∃ z, ringBoard.neighbor y Direction.Right = some z ∧ ringBoard.pieces.get z = none)
      ∧ ((wallAt ringBoard x Direction.Right = true
           ∧ ringBoard.findBeamTarget ⟨1, 1⟩ Direction.Right
              = some (BeamTarget.border (x.toBorderCoords Direction.Right)))
        ∨ (wallAt ringBoard x Direction.Right = false
           ∧ ringBoard.neighbor x Direction.Right = none
           ∧ ringBoard.findBeamTarget ⟨1, 1⟩ Direction.Right
              = some (BeamTarget.border (x.toBorderCoords Direction.Right)))
        ∨ (wallAt ringBoard x Direction.Right = false
           ∧ ∃ z, ringBoard.neighbor x Direction.Right = some z
           ∧ (ringBoard.pieces.get z).isSome = true
           ∧ ringBoard.findBeamTarget ⟨1, 1⟩ Direction.Right = some (BeamTarget.piece z)))) :=
  ⟨by decide, findBeamTarget_first_obstruction ringBoard ⟨1, 1⟩ Direction.Right (by decide)⟩

/-! ## Claim C6: gather terminates within the cell count, and the beam
ring resolves every direction -/

theorem index_lt_of_contains (d : Dimensions) (c : BoardCoords)
    (hc : d.contains c = true) : d.index c < d.cellCount := by
  unfold Dimensions.contains at hc
  simp only [Bool.and_eq_true, decide_eq_true_eq] at hc
  unfold Dimensions.index Dimensions.cellCount
  calc c.row * d.cols + c.col < c.row * d.cols + d.cols := Nat.add_lt_add_left hc.2 _
    _ = (c.row + 1) * d.cols := by ring
    _ ≤ d.rows * d.cols := Nat.mul_le_mul_right _ hc.1

/-- All piece-kind beam targets of all in-bounds cells lie in bounds
(the state in which `retarget_beams` leaves a board). -/
def Board.validTargets (b : Board) : Prop :=
  ∀ c ∈ b.dims.iter, ∀ t ∈ b.pieceTargets c, b.dims.contains t = true

instance (b : Board) : Decidable b.validTargets := by
  unfold Board.validTargets
  infer_instance

theorem coordOf_index (d : Dimensions) (c : BoardCoords) (hc : d.contains c = true) :
    d.coordOf (d.index c) = c := by
  unfold Dimensions.contains at hc
  simp only [Bool.and_eq_true, decide_eq_true_eq] at hc
  unfold Dimensions.coordOf Dimensions.index
  have hcols : 0 < d.cols := Nat.pos_of_ne_zero (by intro h; rw [h] at hc; omega)
  have hdiv : (c.row * d.cols + c.col) / d.cols = c.row := by
    rw [Nat.mul_comm, Nat.mul_add_div hcols]
    simp [Nat.div_eq_of_lt hc.2]
  have hmod : (c.row * d.cols + c.col) % d.cols = c.col := by
    rw [Nat.add_comm, Nat.add_mul_mod_self_right]
    exact Nat.mod_eq_of_lt hc.2
  rw [hdiv, hmod]

theorem mem_iter_of_contains (d : Dimensions) (c : BoardCoords)
    (hc : d.contains c = true) : c ∈ d.iter := by
  unfold Dimensions.iter
  refine List.mem_map.mpr ⟨d.index c, ?_, coordOf_index d c hc⟩
  exact List.mem_range.mpr (index_lt_of_contains d c hc)

/-- One-step unfolding of `gather` at positive fuel. -/
theorem gather_succ (b : Board) (fuel : Nat) (c : BoardCoords) (g : GridMap Nat)
    (v : Finset Nat) :
    gather b (fuel + 1) c g v =
      if b.dims.index c ∈ v then bumpCount g c
      else (b.pieceTargets c).foldl
        (fun g t => gather b fuel t g (insert (b.dims.index c) v))
        (bumpCount g c) := rfl

/-- The set of cell indices `gather` may still visit. -/
def remaining (b : Board) (v : Finset Nat) : Finset Nat :=
  (Finset.range b.dims.cellCount) \ v

theorem remaining_insert (b : Board) (v : Finset Nat) (c : BoardCoords)
    (hc : b.dims.contains c = true) (hnv : b.dims.index c ∉ v) :
    (remaining b (insert (b.dims.index c) v)).card + 1 = (remaining b v).card := by
  unfold remaining
  rw [Finset.sdiff_insert]
  rw [Finset.card_erase_of_mem]
  · have hpos : 0 < ((Finset.range b.dims.cellCount) \ v).card :=
      Finset.card_pos.mpr ⟨b.dims.index c, Finset.mem_sdiff.mpr
        ⟨Finset.mem_range.mpr (index_lt_of_contains b.dims c hc), hnv⟩⟩
    omega
  · exact Finset.mem_sdiff.mpr
      ⟨Finset.mem_range.mpr (index_lt_of_contains b.dims c hc), hnv⟩

/-- With fuel at least one more than the number of unvisited cells, the
result of `gather` does not depend on the fuel: the recursion finishes
inside that depth bound. -/
theorem gather_fuel_irrel (b : Board) (hv : b.validTargets) :
    ∀ (f1 f2 : Nat) (c : BoardCoords) (g : GridMap Nat) (v : Finset Nat),
      b.dims.contains c = true →
      (remaining b v).card + 1 ≤ f1 →
      (remaining b v).card + 1 ≤ f2 →
      gather b f1 c g v = gather b f2 c g v := by
  intro f1
  induction f1 with
  | zero => intro f2 c g v _ h1 _; omega
  | succ m ih =>
    intro f2 c g v hc h1 h2
    rcases f2 with _ | k
    · omega
    rw [gather_succ, gather_succ]
    by_cases hmem : b.dims.index c ∈ v
    · rw [if_pos hmem, if_pos hmem]
    · rw [if_neg hmem, if_neg hmem]
      have hrem : (remaining b (insert (b.dims.index c) v)).card + 1 = (remaining b v).card :=
      remaining_insert b v c hc hmem
      have hts : ∀ t ∈ b.pieceTargets c, b.dims.contains t = true :=
        hv c (mem_iter_of_contains b.dims c hc)
      have hfold : ∀ (ts : List BoardCoords),
          (∀ t ∈ ts, b.dims.contains t = true) → ∀ g0 : GridMap Nat,
          ts.foldl (fun g t => gather b m t g (insert (b.dims.index c) v)) g0
          = ts.foldl (fun g t => gather b k t g (insert (b.dims.index c) v)) g0 := by
        intro ts
        induction ts with
        | nil => intro _ g0; rfl
        | cons t rest ihts =>
          intro hall g0
          rw [List.foldl_cons, List.foldl_cons]
          rw [ih k t g0 (insert (b.dims.index c) v) (hall t (by simp)) (by omega) (by omega)]
          exact ihts (fun x hx => hall x (by simp [hx])) _
      exact hfold (b.pieceTargets c) hts (bumpCount g c)

/-- Claim C6: on boards with valid (retargeted) beam targets the
recursive gather of `MoveSolver::new` terminates with recursion depth
bounded by the number of board cells — any fuel beyond `cellCount + 1`
computes the same graph — and on the concrete four-manipulator beam ring
`can_move` from leader (1,1) is true in all four directions. -/
theorem gather_terminates_and_ring_moves :
    (∀ (b : Board) (leader : BoardCoords) (f : Nat),
      b.validTargets → b.dims.contains leader = true →
      b.dims.cellCount + 1 ≤ f →
      gather b f leader (GridMap.like b.pieces) ∅
        = gather b (b.dims.cellCount + 1) leader (GridMap.like b.pieces) ∅)
    ∧ (MoveSolver.new ringBoard ⟨1, 1⟩).canMove Direction.Up = true
    ∧ (MoveSolver.new ringBoard ⟨1, 1⟩).canMove Direction.Left = true
    ∧ (MoveSolver.new ringBoard ⟨1, 1⟩).canMove Direction.Down = true
    ∧ (MoveSolver.new ringBoard ⟨1, 1⟩).canMove Direction.Right = true := by
  refine ⟨?_, by decide, by decide, by decide, by decide⟩
  intro b leader f hv hc hf
  have hcard : (remaining b (∅ : Finset Nat)).card = b.dims.cellCount := by
    unfold remaining
    rw [Finset.sdiff_empty, Finset.card_range]
  exact gather_fuel_irrel b hv f (b.dims.cellCount + 1) leader (GridMap.like b.pieces) ∅
    hc (by omega) (by omega)

/-- Witness for claim C6's universal part at the concrete ring board
with surplus fuel. -/
theorem gather_terminates_and_ring_moves_witness :
    ringBoard.validTargets
    ∧ ringBoard.dims.contains ⟨1, 1⟩ = true
    ∧ gather ringBoard 40 ⟨1, 1⟩ (GridMap.like ringBoard.pieces) ∅
        = gather ringBoard (ringBoard.dims.cellCount + 1) ⟨1, 1⟩
            (GridMap.like ringBoard.pieces) ∅ :=
  ⟨by decide, by decide,
    gather_terminates_and_ring_moves.1 ringBoard ⟨1, 1⟩ 40 (by decide) (by decide) (by decide)⟩

/-! ## Claim C7: `can_move` agrees with the drag move-set on the leader -/

theorem listGetD_set {T : Type} (l : List T) (i j : Nat) (v d : T) :
    (l.set i v).getD j d = if i = j ∧ i < l.length then v else l.getD j d := by
  simp only [List.getD_eq_getElem?_getD, List.getElem?_set]
  by_cases h : i = j
  · subst h
    by_cases h2 : i < l.length
    · simp [h2]
    · simp [h2, List.getElem?_eq_none (Nat.le_of_not_lt h2)]
  · simp [h]

theorem GridMap.get_set {T : Type} (g : GridMap T) (c x : BoardCoords) (v : Option T) :
    (g.set c v).get x =
      if g.dims.index c = g.dims.index x ∧ g.dims.index c < g.cells.length then v
      else g.get x := by
  unfold GridMap.get GridMap.set
  exact listGetD_set g.cells (g.dims.index c) (g.dims.index x) v none

theorem GridMap.get_set_none_self {T : Type} (g : GridMap T) (c x : BoardCoords)
    (h : g.dims.index x = g.dims.index c) : (g.set c none).get x = none := by
  rw [GridMap.get_set]
  by_cases h2 : g.dims.index c < g.cells.length
  · rw [if_pos ⟨h.symm, h2⟩]
  · rw [if_neg (by intro hh; exact h2 hh.2)]
    unfold GridMap.get
    rw [h, List.getD_eq_getElem?_getD, List.getElem?_eq_none (Nat.le_of_not_lt h2)]
    rfl

theorem GridMap.get_set_ne {T : Type} (g : GridMap T) (c x : BoardCoords) (v : Option T)
    (h : g.dims.index x ≠ g.dims.index c) : (g.set c v).get x = g.get x := by
  rw [GridMap.get_set]
  rw [if_neg (by intro hh; exact h hh.1.symm)]

theorem GridMap.dims_set {T : Type} (g : GridMap T) (c : BoardCoords) (v : Option T) :
    (g.set c v).dims = g.dims := rfl

theorem GridMap.length_set {T : Type} (g : GridMap T) (c : BoardCoords) (v : Option T) :
    (g.set c v).cells.length = g.cells.length := by
  unfold GridMap.set
  exact List.length_set g.cells (g.dims.index c) v

theorem bumpCount_shape (g : GridMap Nat) (c : BoardCoords) :
    (bumpCount g c).dims = g.dims ∧ (bumpCount g c).cells.length = g.cells.length := by
  unfold bumpCount
  rcases g.get c with _ | n
  · exact ⟨rfl, GridMap.length_set g c (some 1)⟩
  · exact ⟨rfl, GridMap.length_set g c _⟩

theorem decrementTargets_shape (b : Board) (c : BoardCoords) (g : GridMap Nat) :
    (decrementTargets b c g).dims = g.dims
    ∧ (decrementTargets b c g).cells.length = g.cells.length := by
  unfold decrementTargets
  generalize b.pieceTargets c = ts
  induction ts generalizing g with
  | nil => exact ⟨rfl, rfl⟩
  | cons t rest ih =>
    rw [List.foldl_cons]
    rcases hg : g.get t with _ | n
    · exact ih g
    · obtain ⟨h1, h2⟩ := ih (g.set t (some (n - 1)))
      exact ⟨by rw [h1]; rfl, by rw [h2, GridMap.length_set]⟩

theorem gather_shape (b : Board) :
    ∀ (fuel : Nat) (c : BoardCoords) (g : GridMap Nat) (v : Finset Nat),
      (gather b fuel c g v).dims = g.dims
      ∧ (gather b fuel c g v).cells.length = g.cells.length := by
  intro fuel
  induction fuel with
  | zero => intro c g v; exact ⟨rfl, rfl⟩
  | succ m ih =>
    intro c g v
    rw [gather_succ]
    by_cases hmem : b.dims.index c ∈ v
    · rw [if_pos hmem]; exact bumpCount_shape g c
    · rw [if_neg hmem]
      have hfold : ∀ (ts : List BoardCoords) (g0 : GridMap Nat),
          (ts.foldl (fun g t => gather b m t g (insert (b.dims.index c) v)) g0).dims = g0.dims
          ∧ (ts.foldl (fun g t => gather b m t g (insert (b.dims.index c) v)) g0).cells.length
              = g0.cells.length := by
        intro ts
        induction ts with
        | nil => intro g0; exact ⟨rfl, rfl⟩
        | cons t rest ihts =>
          intro g0
          rw [List.foldl_cons]
          obtain ⟨h1, h2⟩ := ihts (gather b m t g0 (insert (b.dims.index c) v))
          obtain ⟨h3, h4⟩ := ih t g0 (insert (b.dims.index c) v)
          exact ⟨by rw [h1, h3], by rw [h2, h4]⟩
      obtain ⟨h1, h2⟩ := hfold (b.pieceTargets c) (bumpCount g c)
      obtain ⟨h3, h4⟩ := bumpCount_shape g c
      exact ⟨by rw [h1, h3], by rw [h2, h4]⟩

theorem prunePassGo_nil (b : Board) (d : Direction) (stop : Option BoardCoords)
    (g : GridMap Nat) (pr : Bool) :
    prunePassGo b d stop [] g pr = (g, pr, false) := rfl

theorem prunePassGo_cons (b : Board) (d : Direction) (stop : Option BoardCoords)
    (c : BoardCoords) (rest : List BoardCoords) (g : GridMap Nat) (pr : Bool) :
    prunePassGo b d stop (c :: rest) g pr =
      match g.get c with
      | none => prunePassGo b d stop rest g pr
      | some refCount =>
        if refCount = 0 || shouldPrune b g c d then
          if stop = some c then
            (g.set c none, true, true)
          else
            prunePassGo b d stop rest (decrementTargets b c (g.set c none)) true
        else
          prunePassGo b d stop rest g pr := rfl

theorem pruneLoop_succ (b : Board) (d : Direction) (stop : Option BoardCoords)
    (fuel : Nat) (g : GridMap Nat) :
    pruneLoop b d stop (fuel + 1) g =
      match prunePass b d stop g with
      | (g1, pruned, stopped) =>
        if stopped then g1
        else if pruned then pruneLoop b d stop fuel g1
        else g1 := rfl

theorem decrementTargets_none (b : Board) (c : BoardCoords) :
    ∀ (g : GridMap Nat) (x : BoardCoords), g.get x = none →
      (decrementTargets b c g).get x = none := by
  unfold decrementTargets
  generalize b.pieceTargets c = ts
  induction ts with
  | nil => intro g x hx; exact hx
  | cons t rest ih =>
    intro g x hx
    rw [List.foldl_cons]
    rcases hgt : g.get t with _ | n
    · exact ih g x hx
    · refine ih _ x ?_
      by_cases hidx : g.dims.index x = g.dims.index t
      · exfalso
        have : g.get x = g.get t := by
          unfold GridMap.get
          rw [hidx]
        rw [hx, hgt] at this
        exact Option.noConfusion this
      · rw [GridMap.get_set_ne g t x _ hidx]
        exact hx

theorem set_none_none (g : GridMap Nat) (c x : BoardCoords) (hx : g.get x = none) :
    (g.set c none).get x = none := by
  by_cases hidx : g.dims.index x = g.dims.index c
  · exact GridMap.get_set_none_self g c x hidx
  · rw [GridMap.get_set_ne g c x _ hidx]; exact hx

theorem prunePassGo_none_mono (b : Board) (d : Direction) (stop : Option BoardCoords) :
    ∀ (ls : List BoardCoords) (g : GridMap Nat) (pr : Bool) (x : BoardCoords),
      g.get x = none → ((prunePassGo b d stop ls g pr).1).get x = none := by
  intro ls
  induction ls with
  | nil => intro g pr x hx; rw [prunePassGo_nil]; exact hx
  | cons c rest ih =>
    intro g pr x hx
    rw [prunePassGo_cons]
    rcases hg : g.get c with _ | rc
    · exact ih g pr x hx
    · dsimp only
      by_cases hcond : (rc = 0 || shouldPrune b g c d) = true
      · rw [if_pos hcond]
        by_cases hsc : stop = some c
        · rw [if_pos hsc]
          exact set_none_none g c x hx
        · rw [if_neg hsc]
          exact ih _ true x (decrementTargets_none b c _ x (set_none_none g c x hx))
      · rw [if_neg hcond]
        exact ih g pr x hx

theorem pruneLoop_none_mono (b : Board) (d : Direction) (stop : Option BoardCoords) :
    ∀ (fuel : Nat) (g : GridMap Nat) (x : BoardCoords),
      g.get x = none → (pruneLoop b d stop fuel g).get x = none := by
  intro fuel
  induction fuel with
  | zero => intro g x hx; exact hx
  | succ m ih =>
    intro g x hx
    rw [pruneLoop_succ]
    rcases hps : prunePass b d stop g with ⟨g1, p1, s1⟩
    have hg1 : g1.get x = none := by
      have := prunePassGo_none_mono b d stop b.dims.iter g false x hx
      unfold prunePass at hps
      rw [hps] at this
      exact this
    dsimp only
    cases s1
    · cases p1
      · exact hg1
      · exact ih g1 x hg1
    · exact hg1

/-- A pass with no stop coordinate never reports an early stop. -/
theorem prunePassGo_none_not_stopped (b : Board) (d : Direction) :
    ∀ (ls : List BoardCoords) (g : GridMap Nat) (pr : Bool),
      (prunePassGo b d none ls g pr).2.2 = false := by
  intro ls
  induction ls with
  | nil => intro g pr; rfl
  | cons c rest ih =>
    intro g pr
    rw [prunePassGo_cons]
    rcases hg : g.get c with _ | rc
    · exact ih g pr
    · dsimp only
      by_cases hcond : (rc = 0 || shouldPrune b g c d) = true
      · rw [if_pos hcond, if_neg (by simp)]
        exact ih _ true
      · rw [if_neg hcond]
        exact ih g pr

/-- If the early-stopping pass does not stop, it computes exactly what
the unrestricted pass computes. -/
theorem prunePassGo_nostop (b : Board) (d : Direction) (l : BoardCoords) :
    ∀ (ls : List BoardCoords) (g : GridMap Nat) (pr : Bool),
      (prunePassGo b d (some l) ls g pr).2.2 = false →
      prunePassGo b d none ls g pr = prunePassGo b d (some l) ls g pr := by
  intro ls
  induction ls with
  | nil => intro g pr _; rfl
  | cons c rest ih =>
    intro g pr hns
    rw [prunePassGo_cons] at hns ⊢
    rw [prunePassGo_cons b d (some l)]
    rcases hg : g.get c with _ | rc
    · rw [hg] at hns
      exact ih g pr hns
    · rw [hg] at hns
      dsimp only at hns ⊢
      by_cases hcond : (rc = 0 || shouldPrune b g c d) = true
      · simp only [if_pos hcond] at hns ⊢
        by_cases hsc : (some l : Option BoardCoords) = some c
        · rw [if_pos hsc] at hns
          exact absurd hns (by simp)
        · rw [if_neg hsc] at hns ⊢
          rw [if_neg (by simp : ¬(none : Option BoardCoords) = some c)]
          exact ih _ true hns
      · simp only [if_neg hcond] at hns ⊢
        exact ih g pr hns

/-- When the early stop fires, the pass has just removed the stop node. -/
theorem prunePassGo_stopped_self (b : Board) (d : Direction) (l : BoardCoords) :
    ∀ (ls : List BoardCoords) (g : GridMap Nat) (pr : Bool),
      (prunePassGo b d (some l) ls g pr).2.2 = true →
      ((prunePassGo b d (some l) ls g pr).1).get l = none := by
  intro ls
  induction ls with
  | nil => intro g pr hs; exact absurd hs (by simp [prunePassGo_nil])
  | cons c rest ih =>
    intro g pr hs
    rw [prunePassGo_cons] at hs ⊢
    rcases hg : g.get c with _ | rc
    · rw [hg] at hs
      exact ih g pr hs
    · rw [hg] at hs
      dsimp only at hs ⊢
      by_cases hcond : (rc = 0 || shouldPrune b g c d) = true
      · rw [if_pos hcond] at hs ⊢
        by_cases hsc : (some l : Option BoardCoords) = some c
        · rw [if_pos hsc]
          have hlc : l = c := by injection hsc
          subst hlc
          exact GridMap.get_set_none_self g l l rfl
        · rw [if_neg hsc] at hs ⊢
          exact ih _ true hs
      · rw [if_neg hcond] at hs ⊢
        exact ih g pr hs

/-- When the early stop fires, the unrestricted pass over the same cells
also ends with the stop node removed. -/
theorem prunePassGo_stopped_none_run (b : Board) (d : Direction) (l : BoardCoords) :
    ∀ (ls : List BoardCoords) (g : GridMap Nat) (pr : Bool),
      (prunePassGo b d (some l) ls g pr).2.2 = true →
      ((prunePassGo b d none ls g pr).1).get l = none := by
  intro ls
  induction ls with
  | nil => intro g pr hs; exact absurd hs (by simp [prunePassGo_nil])
  | cons c rest ih =>
    intro g pr hs
    rw [prunePassGo_cons] at hs ⊢
    rcases hg : g.get c with _ | rc
    · rw [hg] at hs
      exact ih g pr hs
    · rw [hg] at hs
      dsimp only at hs ⊢
      by_cases hcond : (rc = 0 || shouldPrune b g c d) = true
      · rw [if_pos hcond] at hs ⊢
        rw [if_neg (by simp : ¬(none : Option BoardCoords) = some c)]
        by_cases hsc : (some l : Option BoardCoords) = some c
        · have hlc : l = c := by injection hsc
          subst hlc
          exact prunePassGo_none_mono b d none rest _ true l
            (decrementTargets_none b l _ l (GridMap.get_set_none_self g l l rfl))
        · rw [if_neg hsc] at hs
          exact ih _ true hs
      · rw [if_neg hcond] at hs ⊢
        exact ih g pr hs

/-- The early-stopping prune loop and the unrestricted prune loop either
compute the same graph or both end with the stop node removed. -/
theorem pruneLoop_bisim (b : Board) (d : Direction) (l : BoardCoords) :
    ∀ (fuel : Nat) (g : GridMap Nat),
      pruneLoop b d (some l) fuel g = pruneLoop b d none fuel g
      ∨ ((pruneLoop b d (some l) fuel g).get l = none
         ∧ (pruneLoop b d none fuel g).get l = none) := by
  intro fuel
  induction fuel with
  | zero => intro g; exact Or.inl rfl
  | succ m ih =>
    intro g
    rw [pruneLoop_succ, pruneLoop_succ]
    rcases hps : prunePass b d (some l) g with ⟨g1, p1, s1⟩
    cases s1 with
    | true =>
      have hg1 : g1.get l = none := by
        have := prunePassGo_stopped_self b d l b.dims.iter g false (by
          unfold prunePass at hps
          rw [hps])
        unfold prunePass at hps
        rw [hps] at this
        exact this
      rcases hpn : prunePass b d none g with ⟨g2, p2, s2⟩
      have hs2 : s2 = false := by
        have := prunePassGo_none_not_stopped b d b.dims.iter g false
        unfold prunePass at hpn
        rw [hpn] at this
        exact this
      subst hs2
      have hg2 : g2.get l = none := by
        have := prunePassGo_stopped_none_run b d l b.dims.iter g false (by
          unfold prunePass at hps
          rw [hps])
        unfold prunePass at hpn
        rw [hpn] at this
        exact this
      dsimp only
      refine Or.inr ⟨hg1, ?_⟩
      cases p2
      · exact hg2
      · exact pruneLoop_none_mono b d none m g2 l hg2
    | false =>
      have hpn : prunePass b d none g = (g1, p1, false) := by
        unfold prunePass at hps ⊢
        rw [prunePassGo_nostop b d l b.dims.iter g false (by rw [hps]), hps]
      rw [hpn]
      dsimp only
      cases p1
      · exact Or.inl rfl
      · exact ih g1

theorem GridSet.contains_insert (s : GridSet) (c x : BoardCoords) :
    ((s.insert c).contains x = true) ↔
      ((s.dims.index c = s.dims.index x ∧ s.dims.index c < s.bits.length)
        ∨ s.contains x = true) := by
  unfold GridSet.insert GridSet.contains
  rw [listGetD_set]
  by_cases h : s.dims.index c = s.dims.index x ∧ s.dims.index c < s.bits.length
  · rw [if_pos h]
    exact iff_of_true rfl (Or.inl h)
  · rw [if_neg h]
    simp only [iff_or_self]
    intro hh
    exact absurd hh h

theorem GridSet.like_contains {T : Type} (g : GridMap T) (x : BoardCoords) :
    (GridSet.like g).contains x = false := by
  show (List.replicate (g.dims.rows * g.dims.cols) false).getD _ false = false
  rw [List.getD_eq_getElem?_getD]
  rcases h : (List.replicate (g.dims.rows * g.dims.cols) false)[
    (GridSet.like g).dims.index x]? with _ | v
  · rfl
  · have := List.getElem?_mem h
    simp only [List.eq_of_mem_replicate this]
    rfl

theorem foldl_insert_contains :
    ∀ (L : List BoardCoords) (s0 : GridSet) (x : BoardCoords),
      ((L.foldl GridSet.insert s0).contains x = true) ↔
        (s0.contains x = true
         ∨ ∃ cc ∈ L, s0.dims.index cc = s0.dims.index x ∧ s0.dims.index cc < s0.bits.length) := by
  intro L
  induction L with
  | nil => intro s0 x; simp
  | cons c rest ih =>
    intro s0 x
    rw [List.foldl_cons, ih (s0.insert c) x]
    have hdims : (s0.insert c).dims = s0.dims := rfl
    have hlen : (s0.insert c).bits.length = s0.bits.length := List.length_set _ _ _
    rw [GridSet.contains_insert, hdims, hlen]
    constructor
    · rintro ((⟨hi, hl⟩ | hs) | ⟨cc, hcc, hi, hl⟩)
      · exact Or.inr ⟨c, by simp, hi, hl⟩
      · exact Or.inl hs
      · exact Or.inr ⟨cc, by simp [hcc], hi, hl⟩
    · rintro (hs | ⟨cc, hcc, hi, hl⟩)
      · exact Or.inl (Or.inr hs)
      · rcases List.mem_cons.mp hcc with rfl | hmem
        · exact Or.inl (Or.inl ⟨hi, hl⟩)
        · exact Or.inr ⟨cc, hmem, hi, hl⟩

theorem prunePassGo_shape (b : Board) (d : Direction) (stop : Option BoardCoords) :
    ∀ (ls : List BoardCoords) (g : GridMap Nat) (pr : Bool),
      ((prunePassGo b d stop ls g pr).1).dims = g.dims
      ∧ ((prunePassGo b d stop ls g pr).1).cells.length = g.cells.length := by
  intro ls
  induction ls with
  | nil => intro g pr; exact ⟨rfl, rfl⟩
  | cons c rest ih =>
    intro g pr
    rw [prunePassGo_cons]
    rcases hg : g.get c with _ | rc
    · exact ih g pr
    · dsimp only
      by_cases hcond : (rc = 0 || shouldPrune b g c d) = true
      · rw [if_pos hcond]
        by_cases hsc : stop = some c
        · rw [if_pos hsc]
          exact ⟨rfl, GridMap.length_set g c none⟩
        · rw [if_neg hsc]
          obtain ⟨h1, h2⟩ := ih (decrementTargets b c (g.set c none)) true
          obtain ⟨h3, h4⟩ := decrementTargets_shape b c (g.set c none)
          exact ⟨by rw [h1, h3]; rfl, by rw [h2, h4, GridMap.length_set]⟩
      · rw [if_neg hcond]
        exact ih g pr

theorem pruneLoop_shape (b : Board) (d : Direction) (stop : Option BoardCoords) :
    ∀ (fuel : Nat) (g : GridMap Nat),
      (pruneLoop b d stop fuel g).dims = g.dims
      ∧ (pruneLoop b d stop fuel g).cells.length = g.cells.length := by
  intro fuel
  induction fuel with
  | zero => intro g; exact ⟨rfl, rfl⟩
  | succ m ih =>
    intro g
    rw [pruneLoop_succ]
    rcases hps : prunePass b d stop g with ⟨g1, p1, s1⟩
    have hg1 : g1.dims = g.dims ∧ g1.cells.length = g.cells.length := by
      have := prunePassGo_shape b d stop b.dims.iter g false
      unfold prunePass at hps
      rw [hps] at this
      exact this
    dsimp only
    cases s1
    · cases p1
      · exact hg1
      · obtain ⟨h1, h2⟩ := ih g1
        refine ⟨?_, ?_⟩
        · show (pruneLoop b d stop m g1).dims = g.dims
          rw [h1, hg1.1]
        · show (pruneLoop b d stop m g1).cells.length = g.cells.length
          rw [h2, hg1.2]
    · exact hg1

theorem getD_isSome_lt {T : Type} (l : List (Option T)) (i : Nat)
    (h : (l.getD i none).isSome = true) : i < l.length := by
  by_contra hlt
  rw [List.getD_eq_getElem?_getD, List.getElem?_eq_none (Nat.le_of_not_lt hlt)] at h
  simp at h

/-- Membership in the drag result is exactly survival in the fully
pruned graph. -/
theorem drag_contains_iff (s : MoveSolver) (d : Direction) (x : BoardCoords)
    (hlen : s.graph.cells.length = s.graph.dims.cellCount) :
    ((s.drag d).contains x = true) ↔ (((s.prune d none).get x).isSome = true) := by
  unfold MoveSolver.drag
  obtain ⟨hdims, hglen⟩ := pruneLoop_shape s.board d none (s.graph.countSome + 1) s.graph
  have hdims2 : (s.prune d none).dims = s.graph.dims := hdims
  have hglen2 : (s.prune d none).cells.length = s.graph.cells.length := hglen
  rw [foldl_insert_contains]
  have hlikedims : (GridSet.like (s.prune d none)).dims = (s.prune d none).dims := rfl
  have hlikelen : (GridSet.like (s.prune d none)).bits.length
      = (s.prune d none).dims.cellCount := by
    show (List.replicate _ false).length = _
    rw [List.length_replicate]
    rfl
  rw [GridSet.like_contains]
  simp only [Bool.false_eq_true, false_or, hlikedims, hlikelen]
  constructor
  · rintro ⟨cc, hcc, hidx, _⟩
    obtain ⟨i, hi, rfl⟩ := List.mem_map.mp hcc
    have hi2 := List.mem_filter.mp hi
    have hidx2 : (s.prune d none).dims.index ((s.prune d none).dims.coordOf i) = i :=
      index_coordOf _ i
    rw [hidx2] at hidx
    unfold GridMap.get
    rw [← hidx]
    exact hi2.2
  · intro hx
    refine ⟨(s.prune d none).dims.coordOf ((s.prune d none).dims.index x), ?_, ?_, ?_⟩
    · refine List.mem_map.mpr ⟨(s.prune d none).dims.index x, ?_, rfl⟩
      refine List.mem_filter.mpr ⟨List.mem_range.mpr ?_, hx⟩
      exact getD_isSome_lt _ _ hx
    · rw [index_coordOf]
    · rw [index_coordOf]
      rw [← hdims2, ← hglen2] at hlen
      rw [← hlen]
      exact getD_isSome_lt _ _ hx

/-- Claim C7: the leader survives the run-to-completion drag pruning
exactly when the early-stopping `can_move` pruning allows the direction,
i.e. `c ∈ compute_move_set(c, d)` iff `d ∈ compute_allowed_moves(c)`. -/
theorem computeMoveSet_leader_iff (b : Board) (c : BoardCoords) (d : Direction)
    (_hpiece : (b.pieces.get c).isSome = true) (_hv : b.validTargets) :
    ((b.computeMoveSet c d).contains c = true) ↔ d ∈ b.computeAllowedMoves c := by
  unfold Board.computeMoveSet Board.computeAllowedMoves
  rw [List.mem_filter]
  have hdall : d ∈ Direction.all := by cases d <;> decide
  simp only [hdall, true_and]
  have hlen : (MoveSolver.new b c).graph.cells.length
      = (MoveSolver.new b c).graph.dims.cellCount := by
    show (gather b (b.dims.cellCount + 1) c (GridMap.like b.pieces) ∅).cells.length
      = (gather b (b.dims.cellCount + 1) c (GridMap.like b.pieces) ∅).dims.cellCount
    obtain ⟨h1, h2⟩ := gather_shape b (b.dims.cellCount + 1) c (GridMap.like b.pieces) ∅
    rw [h1, h2]
    show (List.replicate _ (none : Option Nat)).length = _
    rw [List.length_replicate]
    rfl
  rw [drag_contains_iff _ _ _ hlen]
  unfold MoveSolver.canMove
  unfold MoveSolver.prune
  show ((pruneLoop b d none ((MoveSolver.new b c).graph.countSome + 1)
      (MoveSolver.new b c).graph).get c).isSome = true
    ↔ ((pruneLoop b d (some c) ((MoveSolver.new b c).graph.countSome + 1)
      (MoveSolver.new b c).graph).get c).isSome = true
  rcases pruneLoop_bisim b d c ((MoveSolver.new b c).graph.countSome + 1)
      (MoveSolver.new b c).graph with h | ⟨h1, h2⟩
  · rw [h]
  · rw [h1, h2]

/-- Witness for claim C7 on the ring board, leader (1,1), direction Up. -/
theorem computeMoveSet_leader_iff_witness :
    (ringBoard.pieces.get ⟨1, 1⟩).isSome = true
    ∧ ringBoard.validTargets
    ∧ (((ringBoard.computeMoveSet ⟨1, 1⟩ Direction.Up).contains ⟨1, 1⟩ = true)
        ↔ Direction.Up ∈ ringBoard.computeAllowedMoves ⟨1, 1⟩) :=
  ⟨by decide, by decide,
    computeMoveSet_leader_iff ringBoard ⟨1, 1⟩ Direction.Up (by decide) (by decide)⟩

/-! ## Claim C10: `move_pieces` relocates the set one cell and leaves the
frame untouched -/

theorem index_inj (dm : Dimensions) (a c : BoardCoords)
    (ha : dm.contains a = true) (hc : dm.contains c = true)
    (h : dm.index a = dm.index c) : a = c := by
  have := coordOf_index dm a ha
  rw [h, coordOf_index dm c hc] at this
  exact this.symm

theorem neighbor_inj (b : Board) (a c x : BoardCoords) (d : Direction)
    (ha : b.neighbor a d = some x) (hc : b.neighbor c d = some x) : a = c := by
  cases d <;> unfold Board.neighbor at ha hc
  case Up =>
    by_cases h0 : a.row = 0
    · rw [if_pos h0] at ha; exact Option.noConfusion ha
    rw [if_neg h0] at ha
    by_cases h1 : c.row = 0
    · rw [if_pos h1] at hc; exact Option.noConfusion hc
    rw [if_neg h1] at hc
    injection ha with ha
    injection hc with hc
    rw [← hc] at ha
    simp only [BoardCoords.mk.injEq] at ha
    obtain ⟨hr, hcl⟩ := ha
    have hrow : a.row = c.row := by omega
    show a = c
    calc a = ⟨a.row, a.col⟩ := rfl
      _ = ⟨c.row, c.col⟩ := by rw [hrow, hcl]
      _ = c := rfl
  case Left =>
    by_cases h0 : a.col = 0
    · rw [if_pos h0] at ha; exact Option.noConfusion ha
    rw [if_neg h0] at ha
    by_cases h1 : c.col = 0
    · rw [if_pos h1] at hc; exact Option.noConfusion hc
    rw [if_neg h1] at hc
    injection ha with ha
    injection hc with hc
    rw [← hc] at ha
    simp only [BoardCoords.mk.injEq] at ha
    obtain ⟨hrw, hr⟩ := ha
    have hcol : a.col = c.col := by omega
    show a = c
    calc a = ⟨a.row, a.col⟩ := rfl
      _ = ⟨c.row, c.col⟩ := by rw [hrw, hcol]
      _ = c := rfl
  case Down =>
    by_cases h0 : a.row + 1 < b.dims.rows
    · rw [if_pos h0] at ha
      by_cases h1 : c.row + 1 < b.dims.rows
      · rw [if_pos h1] at hc
        injection ha with ha
        injection hc with hc
        rw [← hc] at ha
        simp only [BoardCoords.mk.injEq] at ha
        obtain ⟨hr, hcl⟩ := ha
        have hrow : a.row = c.row := by omega
        show a = c
        calc a = ⟨a.row, a.col⟩ := rfl
          _ = ⟨c.row, c.col⟩ := by rw [hrow, hcl]
          _ = c := rfl
      · rw [if_neg h1] at hc; exact Option.noConfusion hc
    · rw [if_neg h0] at ha; exact Option.noConfusion ha
  case Right =>
    by_cases h0 : a.col + 1 < b.dims.cols
    · rw [if_pos h0] at ha
      by_cases h1 : c.col + 1 < b.dims.cols
      · rw [if_pos h1] at hc
        injection ha with ha
        injection hc with hc
        rw [← hc] at ha
        simp only [BoardCoords.mk.injEq] at ha
        obtain ⟨hrw, hr⟩ := ha
        have hcol : a.col = c.col := by omega
        show a = c
        calc a = ⟨a.row, a.col⟩ := rfl
          _ = ⟨c.row, c.col⟩ := by rw [hrw, hcol]
          _ = c := rfl
      · rw [if_neg h1] at hc; exact Option.noConfusion hc
    · rw [if_neg h0] at ha; exact Option.noConfusion ha

/-- Stepping Up or Left strictly decreases the flat index. -/
theorem neighbor_index_asc (b : Board) (a n : BoardCoords) (d : Direction)
    (hd : d = Direction.Up ∨ d = Direction.Left)
    (ha : b.dims.contains a = true) (hn : b.neighbor a d = some n) :
    b.dims.index n < b.dims.index a := by
  unfold Dimensions.contains at ha
  simp only [Bool.and_eq_true, decide_eq_true_eq] at ha
  have hcols : 0 < b.dims.cols := Nat.pos_of_ne_zero (by intro h; omega)
  rcases hd with rfl | rfl
  · unfold Board.neighbor at hn
    by_cases h0 : a.row = 0
    · rw [if_pos h0] at hn; exact Option.noConfusion hn
    · rw [if_neg h0] at hn
      injection hn with hn
      subst hn
      show (a.row - 1) * b.dims.cols + a.col < a.row * b.dims.cols + a.col
      have hle : (a.row - 1) * b.dims.cols + b.dims.cols ≤ a.row * b.dims.cols := by
        have h2 : (a.row - 1 + 1) * b.dims.cols ≤ a.row * b.dims.cols :=
          Nat.mul_le_mul_right _ (by omega)
        calc (a.row - 1) * b.dims.cols + b.dims.cols
            = (a.row - 1 + 1) * b.dims.cols := by ring
          _ ≤ a.row * b.dims.cols := h2
      omega
  · unfold Board.neighbor at hn
    by_cases h0 : a.col = 0
    · rw [if_pos h0] at hn; exact Option.noConfusion hn
    · rw [if_neg h0] at hn
      injection hn with hn
      subst hn
      show a.row * b.dims.cols + (a.col - 1) < a.row * b.dims.cols + a.col
      omega

/-- Stepping Down or Right strictly increases the flat index. -/
theorem neighbor_index_desc (b : Board) (a n : BoardCoords) (d : Direction)
    (hd : d = Direction.Down ∨ d = Direction.Right)
    (ha : b.dims.contains a = true) (hn : b.neighbor a d = some n) :
    b.dims.index a < b.dims.index n := by
  unfold Dimensions.contains at ha
  simp only [Bool.and_eq_true, decide_eq_true_eq] at ha
  have hcols : 0 < b.dims.cols := Nat.pos_of_ne_zero (by intro h; omega)
  rcases hd with rfl | rfl
  · unfold Board.neighbor at hn
    by_cases h0 : a.row + 1 < b.dims.rows
    · rw [if_pos h0] at hn
      injection hn with hn
      subst hn
      show a.row * b.dims.cols + a.col < (a.row + 1) * b.dims.cols + a.col
      have hmul : (a.row + 1) * b.dims.cols = a.row * b.dims.cols + b.dims.cols := by ring
      omega
    · rw [if_neg h0] at hn; exact Option.noConfusion hn
  · unfold Board.neighbor at hn
    by_cases h0 : a.col + 1 < b.dims.cols
    · rw [if_pos h0] at hn
      injection hn with hn
      subst hn
      show a.row * b.dims.cols + a.col < a.row * b.dims.cols + (a.col + 1)
      omega
    · rw [if_neg h0] at hn; exact Option.noConfusion hn

theorem contains_coordOf (dm : Dimensions) (i : Nat) (hi : i < dm.rows * dm.cols) :
    dm.contains (dm.coordOf i) = true := by
  have hcols : 0 < dm.cols := by
    rcases Nat.eq_zero_or_pos dm.cols with h | h
    · rw [h, Nat.mul_zero] at hi; omega
    · exact h
  unfold Dimensions.contains Dimensions.coordOf
  simp only [Bool.and_eq_true, decide_eq_true_eq]
  constructor
  · show i / dm.cols < dm.rows
    rw [Nat.div_lt_iff_lt_mul hcols]
    calc i < dm.rows * dm.cols := hi
      _ = dm.rows * dm.cols := rfl
      _ ≤ dm.rows * dm.cols := Nat.le_refl _
  · show i % dm.cols < dm.cols
    exact Nat.mod_lt _ hcols

theorem contains_of_mem_iter (dm : Dimensions) (c : BoardCoords) (hc : c ∈ dm.iter) :
    dm.contains c = true := by
  unfold Dimensions.iter at hc
  obtain ⟨i, hi, rfl⟩ := List.mem_map.mp hc
  exact contains_coordOf dm i (List.mem_range.mp hi)

theorem dims_iter_pairwise_lt (dm : Dimensions) :
    dm.iter.Pairwise (fun a c => dm.index a < dm.index c) := by
  unfold Dimensions.iter
  rw [List.pairwise_map]
  refine (List.pairwise_lt_range (dm.rows * dm.cols)).imp ?_
  intro i j hij
  rw [index_coordOf, index_coordOf]
  exact hij

theorem dims_iter_nodup (dm : Dimensions) : dm.iter.Nodup :=
  (dims_iter_pairwise_lt dm).imp (fun h heq => by rw [heq] at h; omega)

theorem members_pairwise_lt (s : GridSet) :
    s.members.Pairwise (fun a c => s.dims.index a < s.dims.index c) :=
  (dims_iter_pairwise_lt s.dims).sublist (List.filter_sublist _)

theorem members_nodup (s : GridSet) : s.members.Nodup :=
  (dims_iter_nodup s.dims).sublist (List.filter_sublist _)

theorem neighbor_congr (a b : Board) (h : a.dims = b.dims) (c : BoardCoords) (d : Direction) :
    a.neighbor c d = b.neighbor c d := by
  cases d <;> simp [Board.neighbor, h]

theorem movePiece_dims (bd : Board) (x y : BoardCoords) :
    (bd.movePiece x y).dims = bd.dims ∧ (bd.movePiece x y).pieces.dims = bd.pieces.dims
    ∧ (bd.movePiece x y).pieces.cells.length = bd.pieces.cells.length := by
  refine ⟨rfl, rfl, ?_⟩
  show ((bd.pieces.set x none).set y _).cells.length = _
  rw [GridMap.length_set, GridMap.length_set]

/-- Cells that are neither moved from nor moved to are untouched by the
`move_pieces` fold. -/
theorem moveFold_frame (b : Board) (d : Direction) :
    ∀ (L : List BoardCoords) (acc : Board) (x : BoardCoords),
      acc.dims = b.dims → acc.pieces.dims = b.dims →
      b.dims.contains x = true →
      (∀ c ∈ L, b.dims.contains c = true) →
      (∀ c ∈ L, c ≠ x) →
      (∀ c ∈ L, ∀ n, b.neighbor c d = some n → n ≠ x) →
      (L.foldl
        (fun acc c =>
          match acc.neighbor c d with
          | some n => acc.movePiece c n
          | none => acc) acc).pieces.get x = acc.pieces.get x := by
  intro L
  induction L with
  | nil => intro acc x _ _ _ _ _ _; rfl
  | cons c rest ih =>
    intro acc x hdims hpdims hx hin hne hnbr
    rw [List.foldl_cons]
    have hnb : acc.neighbor c d = b.neighbor c d := neighbor_congr acc b hdims c d
    rcases hb : b.neighbor c d with _ | n
    · rw [hnb, hb]
      exact ih acc x hdims hpdims hx (fun u hu => hin u (by simp [hu]))
        (fun u hu => hne u (by simp [hu])) (fun u hu => hnbr u (by simp [hu]))
    · rw [hnb, hb]
      dsimp only
      have hcont_c : b.dims.contains c = true := hin c (by simp)
      have hcont_n : b.dims.contains n = true := neighbor_contains b c n d hcont_c hb
      have hne_cx : c ≠ x := hne c (by simp)
      have hne_nx : n ≠ x := hnbr c (by simp) n hb
      have hget : (acc.movePiece c n).pieces.get x = acc.pieces.get x := by
        show (((acc.pieces.set c none).set n (acc.pieces.get c))).get x = acc.pieces.get x
        rw [GridMap.get_set_ne, GridMap.get_set_ne]
        · show acc.pieces.dims.index x ≠ acc.pieces.dims.index c
          rw [hpdims]
          intro heq
          exact hne_cx.symm (index_inj b.dims x c hx hcont_c heq)
        · show ((acc.pieces.set c none)).dims.index x ≠ ((acc.pieces.set c none)).dims.index n
          rw [GridMap.dims_set, hpdims]
          intro heq
          exact hne_nx.symm (index_inj b.dims x n hx hcont_n heq)
      rw [← hget]
      obtain ⟨h1, h2, _⟩ := movePiece_dims acc c n
      exact ih (acc.movePiece c n) x (by rw [h1, hdims]) (by rw [h2, hpdims]) hx
        (fun u hu => hin u (by simp [hu]))
        (fun u hu => hne u (by simp [hu])) (fun u hu => hnbr u (by simp [hu]))

/-- Each processed member's piece ends up in its neighbor cell, provided
members are distinct and no earlier member's destination is a later
member (the `for_each` traversal order guarantees this). -/
theorem moveFold_moves (b : Board) (d : Direction) :
    ∀ (L : List BoardCoords) (acc : Board),
      acc.dims = b.dims → acc.pieces.dims = b.dims →
      acc.pieces.cells.length = b.dims.cellCount →
      L.Nodup →
      L.Pairwise (fun a c2 => ∀ n, b.neighbor a d = some n → n ≠ c2) →
      (∀ c ∈ L, b.dims.contains c = true) →
      ∀ c ∈ L, ∀ n, b.neighbor c d = some n →
        (L.foldl
          (fun acc c =>
            match acc.neighbor c d with
            | some n => acc.movePiece c n
            | none => acc) acc).pieces.get n = acc.pieces.get c := by
  intro L
  induction L with
  | nil => intro acc _ _ _ _ _ _ c hc; exact absurd hc (List.not_mem_nil c)
  | cons a rest ih =>
    intro acc hdims hpdims hplen hnd hpair hin c hc n hn
    rw [List.foldl_cons]
    have hnb : acc.neighbor a d = b.neighbor a d := neighbor_congr acc b hdims a d
    have hcont_a : b.dims.contains a = true := hin a (by simp)
    rcases List.mem_cons.mp hc with rfl | hcrest
    · rw [hnb, hn]
      dsimp only
      have hcont_n : b.dims.contains n = true := neighbor_contains b c n d hcont_a hn
      have hgn : (acc.movePiece c n).pieces.get n = acc.pieces.get c := by
        show (((acc.pieces.set c none)).set n (acc.pieces.get c)).get n = acc.pieces.get c
        have hlt : ((acc.pieces.set c none)).dims.index n
            < ((acc.pieces.set c none)).cells.length := by
          rw [GridMap.dims_set, GridMap.length_set, hpdims, hplen]
          exact index_lt_of_contains b.dims n hcont_n
        rw [GridMap.get_set, if_pos ⟨rfl, hlt⟩]
      rw [← hgn]
      obtain ⟨h1, h2, h3⟩ := movePiece_dims acc c n
      refine moveFold_frame b d rest (acc.movePiece c n) n
        (by rw [h1, hdims]) (by rw [h2, hpdims]) hcont_n
        (fun u hu => hin u (by simp [hu])) ?_ ?_
      · intro u hu
        have := (List.pairwise_cons.mp hpair).1 u hu n hn
        exact fun heq => this heq.symm
      · intro u hu m hm heq
        subst heq
        have : u = c := neighbor_inj b u c m d hm hn
        subst this
        exact (List.nodup_cons.mp hnd).1 hu
    · have hstep : ∀ acc2 : Board, acc2 = (match acc.neighbor a d with
          | some nn => acc.movePiece a nn
          | none => acc) →
          acc2.dims = b.dims ∧ acc2.pieces.dims = b.dims
          ∧ acc2.pieces.cells.length = b.dims.cellCount
          ∧ acc2.pieces.get c = acc.pieces.get c := by
        intro acc2 hacc2
        rw [hnb] at hacc2
        rcases hna : b.neighbor a d with _ | na
        · rw [hna] at hacc2
          dsimp only at hacc2
          subst hacc2
          exact ⟨hdims, hpdims, hplen, rfl⟩
        · rw [hna] at hacc2
          dsimp only at hacc2
          subst hacc2
          obtain ⟨h1, h2, h3⟩ := movePiece_dims acc a na
          refine ⟨by rw [h1, hdims], by rw [h2, hpdims], by rw [h3, hplen], ?_⟩
          have hcont_c : b.dims.contains c = true := hin c (by simp [hcrest])
          have hcont_na : b.dims.contains na = true := neighbor_contains b a na d hcont_a hna
          show (((acc.pieces.set a none)).set na (acc.pieces.get a)).get c = acc.pieces.get c
          have hne1 : ((acc.pieces.set a none)).dims.index c
              ≠ ((acc.pieces.set a none)).dims.index na := by
            rw [GridMap.dims_set, hpdims]
            intro heq
            have : c = na := index_inj b.dims c na hcont_c hcont_na heq
            subst this
            exact (List.pairwise_cons.mp hpair).1 c hcrest c hna rfl
          have hne2 : acc.pieces.dims.index c ≠ acc.pieces.dims.index a := by
            rw [hpdims]
            intro heq
            have : c = a := index_inj b.dims c a hcont_c hcont_a heq
            subst this
            exact (List.nodup_cons.mp hnd).1 hcrest
          rw [GridMap.get_set_ne _ _ _ _ hne1, GridMap.get_set_ne _ _ _ _ hne2]
      obtain ⟨h1, h2, h3, h4⟩ := hstep _ rfl
      rw [← h4]
      exact ih _ h1 h2 h3 (List.nodup_cons.mp hnd).2 (List.pairwise_cons.mp hpair).2
        (fun u hu => hin u (by simp [hu])) c hcrest n hn

/-- The condition claim C10 places on the moved set: every member holds
a piece, and its neighbor in the move direction exists and is empty or
also a member. -/
def moveSetOk (b : Board) (S : GridSet) (d : Direction) : Bool :=
  S.members.all (fun c =>
    (b.pieces.get c).isSome &&
    (match b.neighbor c d with
     | some n => (b.pieces.get n).isNone || S.contains n
     | none => false))

/-- Claim C10: under the claim's conditions, `move_pieces` relocates
each member's piece exactly one cell in the direction, and leaves every
cell that is neither in the set nor a neighbor of a member unchanged —
the traversal order (reverse for Down/Right, forward for Up/Left)
prevents any overwrite. -/
theorem movePieces_spec (b : Board) (S : GridSet) (d : Direction)
    (hSdims : S.dims = b.dims)
    (hpd : b.pieces.dims = b.dims)
    (hplen : b.pieces.cells.length = b.dims.cellCount)
    (_hmove : moveSetOk b S d = true) :
    (∀ c ∈ S.members, ∀ n, b.neighbor c d = some n →
        (b.movePieces S d).pieces.get n = b.pieces.get c)
    ∧ (∀ x, b.dims.contains x = true → S.contains x = false →
        (∀ m ∈ S.members, b.neighbor m d ≠ some x) →
        (b.movePieces S d).pieces.get x = b.pieces.get x) := by
  have hinS : ∀ c ∈ S.members, b.dims.contains c = true := by
    intro c hc
    have h1 := (List.mem_filter.mp hc).1
    have h2 := contains_of_mem_iter S.dims c h1
    rw [hSdims] at h2
    exact h2
  have hmemL : ∀ c : BoardCoords, c ∈ S.orderedMembers d ↔ c ∈ S.members := by
    intro c
    cases d <;> simp [GridSet.orderedMembers]
  have hnodupL : (S.orderedMembers d).Nodup := by
    cases d <;> simp only [GridSet.orderedMembers, List.nodup_reverse] <;>
      exact members_nodup S
  have hpairS : S.members.Pairwise (fun a c => b.dims.index a < b.dims.index c) := by
    have := members_pairwise_lt S
    rw [hSdims] at this
    exact this
  have hpairL : (S.orderedMembers d).Pairwise
      (fun a c2 => ∀ n, b.neighbor a d = some n → n ≠ c2) := by
    cases d with
    | Up =>
      refine hpairS.imp_of_mem ?_
      intro a c2 ha _ hlt n hn heq
      subst heq
      have := neighbor_index_asc b a n Direction.Up (Or.inl rfl) (hinS a ha) hn
      omega
    | Left =>
      refine hpairS.imp_of_mem ?_
      intro a c2 ha _ hlt n hn heq
      subst heq
      have := neighbor_index_asc b a n Direction.Left (Or.inr rfl) (hinS a ha) hn
      omega
    | Down =>
      show (S.members.reverse).Pairwise _
      rw [List.pairwise_reverse]
      refine hpairS.imp_of_mem ?_
      intro c2 a hc2 ha hlt n hn heq
      subst heq
      have := neighbor_index_desc b a n Direction.Down (Or.inl rfl) (hinS a ha) hn
      omega
    | Right =>
      show (S.members.reverse).Pairwise _
      rw [List.pairwise_reverse]
      refine hpairS.imp_of_mem ?_
      intro c2 a hc2 ha hlt n hn heq
      subst heq
      have := neighbor_index_desc b a n Direction.Right (Or.inr rfl) (hinS a ha) hn
      omega
  constructor
  · intro c hc n hn
    exact moveFold_moves b d (S.orderedMembers d) b rfl hpd hplen hnodupL hpairL
      (fun u hu => hinS u ((hmemL u).mp hu)) c ((hmemL c).mpr hc) n hn
  · intro x hx hxs hnx
    refine moveFold_frame b d (S.orderedMembers d) b x rfl hpd hx
      (fun u hu => hinS u ((hmemL u).mp hu)) ?_ ?_
    · intro u hu heq
      subst heq
      have := (List.mem_filter.mp ((hmemL u).mp hu)).2
      rw [hxs] at this
      exact Bool.noConfusion this
    · intro u hu n hn heq
      subst heq
      exact hnx u ((hmemL u).mp hu) hn

def moveWitnessBoard : Board :=
  let b := emptyBoard 2 2
  let b := addManipulator b ⟨1, 0⟩ Emitters.Up
  addManipulator b ⟨1, 1⟩ Emitters.Up

def moveWitnessSet : GridSet :=
  ((GridSet.new 2 2).insert ⟨1, 0⟩).insert ⟨1, 1⟩

/-- Witness for claim C10: moving the bottom row of a 2×2 board Up. -/
theorem movePieces_spec_witness :
    moveWitnessSet.dims = moveWitnessBoard.dims
    ∧ moveWitnessBoard.pieces.dims = moveWitnessBoard.dims
    ∧ moveWitnessBoard.pieces.cells.length = moveWitnessBoard.dims.cellCount
    ∧ moveSetOk moveWitnessBoard moveWitnessSet Direction.Up = true
    ∧ ((∀ c ∈ moveWitnessSet.members, ∀ n, moveWitnessBoard.neighbor c Direction.Up = some n →
          (moveWitnessBoard.movePieces moveWitnessSet Direction.Up).pieces.get n
            = moveWitnessBoard.pieces.get c)
       ∧ (∀ x, moveWitnessBoard.dims.contains x = true →
          moveWitnessSet.contains x = false →
          (∀ m ∈ moveWitnessSet.members, moveWitnessBoard.neighbor m Direction.Up ≠ some x) →
          (moveWitnessBoard.movePieces moveWitnessSet Direction.Up).pieces.get x
            = moveWitnessBoard.pieces.get x)) :=
  ⟨by decide, by decide, by decide, by decide,
    movePieces_spec moveWitnessBoard moveWitnessSet Direction.Up
      (by decide) (by decide) (by decide) (by decide)⟩

/-! ## Claim C9: reference counts never underflow -/

/-- The flat indices of a cell's piece-kind beam targets. -/
def targetIdxs (b : Board) (c : BoardCoords) : List Nat :=
  (b.pieceTargets c).map b.dims.index

/-- All piece-kind beam targets of all in-bounds cells are pairwise
distinct (true of every retargeted board: a manipulator's two beams
leave in different directions). -/
def Board.targetsNodup (b : Board) : Prop :=
  ∀ c ∈ b.dims.iter, (targetIdxs b c).Nodup

instance (b : Board) : Decidable b.targetsNodup := by
  unfold Board.targetsNodup
  infer_instance

/-- Number of graph members holding a beam link onto cell index `i`. -/
def inDegIdx (b : Board) (g : GridMap Nat) (i : Nat) : Nat :=
  ((Finset.range b.dims.cellCount).filter
    (fun j => (g.cells.getD j none).isSome = true ∧ i ∈ targetIdxs b (b.dims.coordOf j))).card

/-- The solver invariant: every cell present in the candidate graph has
a reference count at least its in-degree under piece-kind beam links
from other present cells. -/
def refInvariant (b : Board) (g : GridMap Nat) : Prop :=
  ∀ i n, g.cells.getD i none = some n → inDegIdx b g i ≤ n

/-- The number of gather calls that would hit cell index `i` during the
descent from `c` with on-path set `v` (a pure mirror of `gather`'s
traversal, independent of the graph being accumulated). -/
def addCount (b : Board) : Nat → BoardCoords → Finset Nat → Nat → Nat
  | 0, _, _, _ => 0
  | fuel + 1, c, v, i =>
    (if b.dims.index c = i then 1 else 0) +
    (if b.dims.index c ∈ v then 0
     else ((b.pieceTargets c).map (fun t => addCount b fuel t (insert (b.dims.index c) v) i)).sum)

theorem addCount_succ (b : Board) (fuel : Nat) (c : BoardCoords) (v : Finset Nat) (i : Nat) :
    addCount b (fuel + 1) c v i =
      (if b.dims.index c = i then 1 else 0) +
      (if b.dims.index c ∈ v then 0
       else ((b.pieceTargets c).map
          (fun t => addCount b fuel t (insert (b.dims.index c) v) i)).sum) := rfl

theorem natSum_pos (l : List Nat) : 0 < l.sum ↔ ∃ x ∈ l, 0 < x := by
  induction l with
  | nil => simp
  | cons a t ih =>
    rw [List.sum_cons]
    constructor
    · intro h
      rcases Nat.eq_zero_or_pos a with h0 | h0
      · rw [h0, Nat.zero_add] at h
        obtain ⟨x, hx, hpos⟩ := ih.mp h
        exact ⟨x, by simp [hx], hpos⟩
      · exact ⟨a, by simp, h0⟩
    · rintro ⟨x, hx, hpos⟩
      rcases List.mem_cons.mp hx with rfl | hmem
      · omega
      · have := ih.mpr ⟨x, hmem, hpos⟩
        omega

/-- Effect of `bumpCount` on the stored cells. -/
theorem bumpCount_getD (g : GridMap Nat) (c : BoardCoords) (i : Nat)
    (hin : g.dims.index c < g.cells.length) :
    (bumpCount g c).cells.getD i none =
      if g.dims.index c = i then some ((g.cells.getD i none).getD 0 + 1)
      else g.cells.getD i none := by
  unfold bumpCount
  rcases hg : g.get c with _ | n
  · show (g.cells.set (g.dims.index c) (some 1)).getD i none = _
    rw [listGetD_set]
    by_cases h : g.dims.index c = i
    · rw [if_pos ⟨h, hin⟩, if_pos h]
      unfold GridMap.get at hg
      rw [← h, hg]
      rfl
    · rw [if_neg (by intro hh; exact h hh.1), if_neg h]
  · show (g.cells.set (g.dims.index c) (some (n + 1))).getD i none = _
    rw [listGetD_set]
    by_cases h : g.dims.index c = i
    · rw [if_pos ⟨h, hin⟩, if_pos h]
      unfold GridMap.get at hg
      rw [← h, hg]
      rfl
    · rw [if_neg (by intro hh; exact h hh.1), if_neg h]

/-- `gather` adds exactly `addCount` to every cell of the graph: the
accumulated graph is the initial graph plus the pure visit counts. -/
theorem gather_add (b : Board) (hval : b.validTargets) :
    ∀ (fuel : Nat) (c : BoardCoords) (g : GridMap Nat) (v : Finset Nat),
      b.dims.contains c = true →
      g.dims = b.dims → g.cells.length = b.dims.cellCount →
      ∀ i,
        (((gather b fuel c g v).cells.getD i none).getD 0
          = (g.cells.getD i none).getD 0 + addCount b fuel c v i)
        ∧ (((gather b fuel c g v).cells.getD i none).isSome = true
            ↔ ((g.cells.getD i none).isSome = true ∨ 0 < addCount b fuel c v i)) := by
  intro fuel
  induction fuel with
  | zero =>
    intro c g v _ _ _ i
    constructor
    · show (g.cells.getD i none).getD 0 = (g.cells.getD i none).getD 0 + addCount b 0 c v i
      simp [addCount]
    · show ((g.cells.getD i none).isSome = true) ↔ ((g.cells.getD i none).isSome = true ∨ _)
      simp [addCount]
  | succ m ih =>
    intro c g v hc hgd hglen i
    rw [gather_succ, addCount_succ]
    have hic : g.dims.index c < g.cells.length := by
      rw [hgd, hglen]
      exact index_lt_of_contains b.dims c hc
    have hbump := fun j => bumpCount_getD g c j hic
    have hbumpc : g.dims.index c = b.dims.index c := by rw [hgd]
    obtain ⟨hbd, hbl⟩ := bumpCount_shape g c
    by_cases hmem : b.dims.index c ∈ v
    · rw [if_pos hmem, if_pos hmem]
      have hb := hbump i
      rw [hbumpc] at hb
      by_cases hieq : b.dims.index c = i
      · rw [if_pos hieq] at hb
        rw [hb, if_pos hieq]
        constructor
        · show (g.cells.getD i none).getD 0 + 1 = (g.cells.getD i none).getD 0 + (1 + 0)
          omega
        · simp
      · rw [if_neg hieq] at hb
        rw [hb, if_neg hieq]
        simp
    · rw [if_neg hmem, if_neg hmem]
      have hts : ∀ t ∈ b.pieceTargets c, b.dims.contains t = true :=
        hval c (mem_iter_of_contains b.dims c hc)
      have hfold : ∀ (ts : List BoardCoords), (∀ t ∈ ts, b.dims.contains t = true) →
          ∀ (gacc : GridMap Nat), gacc.dims = b.dims → gacc.cells.length = b.dims.cellCount →
          (((ts.foldl (fun g t => gather b m t g (insert (b.dims.index c) v)) gacc).cells.getD
              i none).getD 0
            = (gacc.cells.getD i none).getD 0
              + (ts.map (fun t => addCount b m t (insert (b.dims.index c) v) i)).sum)
          ∧ (((ts.foldl (fun g t => gather b m t g (insert (b.dims.index c) v)) gacc).cells.getD
              i none).isSome = true
            ↔ ((gacc.cells.getD i none).isSome = true
               ∨ 0 < (ts.map (fun t => addCount b m t (insert (b.dims.index c) v) i)).sum)) := by
        intro ts
        induction ts with
        | nil =>
          intro _ gacc _ _
          simp
        | cons t rest ihts =>
          intro hall gacc had hal
          rw [List.foldl_cons, List.map_cons, List.sum_cons]
          obtain ⟨hcnt1, hpres1⟩ := ih t gacc (insert (b.dims.index c) v)
            (hall t (by simp)) had hal i
          obtain ⟨hsd, hsl⟩ := gather_shape b m t gacc (insert (b.dims.index c) v)
          obtain ⟨hcnt2, hpres2⟩ := ihts (fun u hu => hall u (by simp [hu]))
            (gather b m t gacc (insert (b.dims.index c) v))
            (by rw [hsd, had]) (by rw [hsl, hal])
          constructor
          · rw [hcnt2, hcnt1]
            omega
          · rw [hpres2, hpres1]
            constructor
            · rintro ((h | h) | h)
              · exact Or.inl h
              · exact Or.inr (by omega)
              · exact Or.inr (by omega)
            · rintro (h | h)
              · exact Or.inl (Or.inl h)
              · rcases Nat.lt_or_ge 0 (addCount b m t (insert (b.dims.index c) v) i) with h2 | h2
                · exact Or.inl (Or.inr h2)
                · exact Or.inr (by omega)
      obtain ⟨hcnt, hpres⟩ := hfold (b.pieceTargets c) hts (bumpCount g c)
        (by rw [hbd, hgd]) (by rw [hbl, hglen])
      have hb := hbump i
      rw [hbumpc] at hb
      by_cases hieq : b.dims.index c = i
      · rw [if_pos hieq]
        constructor
        · rw [hcnt, hb, if_pos hieq]
          show (g.cells.getD i none).getD 0 + 1 + _ = _
          omega
        · rw [hpres, hb, if_pos hieq]
          simp only [Option.isSome_some, true_or, true_iff]
          omega
      · rw [if_neg hieq]
        constructor
        · rw [hcnt, hb, if_neg hieq]
          omega
        · rw [hpres, hb, if_neg hieq]
          constructor
          · rintro (h | h)
            · exact Or.inl h
            · exact Or.inr (by omega)
          · rintro (h | h)
            · exact Or.inl h
            · exact Or.inr (by omega)

/-- With sufficient fuel, the visit count of cell `i` dominates one unit
for the entry call (when `i` is the entry cell) plus one unit for every
distinct off-path cell that is visited and holds a beam link onto `i`:
every graph member's links are traversed at least once. -/
theorem addCount_ge_sources (b : Board) (hval : b.validTargets) :
    ∀ (fuel : Nat) (c : BoardCoords) (v : Finset Nat) (i : Nat),
      b.dims.contains c = true →
      (remaining b v).card + 1 ≤ fuel →
      (if b.dims.index c = i then 1 else 0)
        + ((Finset.range b.dims.cellCount).filter
            (fun j => j ∉ v ∧ 0 < addCount b fuel c v j
              ∧ i ∈ targetIdxs b (b.dims.coordOf j))).card
      ≤ addCount b fuel c v i := by
  intro fuel
  induction fuel with
  | zero => intro c v i _ hf; omega
  | succ m ih =>
    intro c v i hc hf
    by_cases hmem : b.dims.index c ∈ v
    · have hU : ((Finset.range b.dims.cellCount).filter
          (fun j => j ∉ v ∧ 0 < addCount b (m + 1) c v j
            ∧ i ∈ targetIdxs b (b.dims.coordOf j))) = ∅ := by
        refine Finset.eq_empty_of_forall_not_mem ?_
        intro j hj
        obtain ⟨_, hjv, hpos, _⟩ := Finset.mem_filter.mp hj
        rw [addCount_succ, if_pos hmem] at hpos
        by_cases hicj : b.dims.index c = j
        · rw [← hicj] at hjv
          exact hjv hmem
        · rw [if_neg hicj] at hpos
          omega
      rw [hU, addCount_succ, if_pos hmem, Finset.card_empty]
    · have hts : ∀ t ∈ b.pieceTargets c, b.dims.contains t = true :=
        hval c (mem_iter_of_contains b.dims c hc)
      have hrem : (remaining b (insert (b.dims.index c) v)).card + 1 = (remaining b v).card :=
        remaining_insert b v c hc hmem
      have hsum : ∀ (ts : List BoardCoords), (∀ t ∈ ts, b.dims.contains t = true) →
          (if i ∈ ts.map b.dims.index then 1 else 0)
            + ((Finset.range b.dims.cellCount).filter
                (fun j => j ∉ insert (b.dims.index c) v
                  ∧ 0 < (ts.map
                      (fun t => addCount b m t (insert (b.dims.index c) v) j)).sum
                  ∧ i ∈ targetIdxs b (b.dims.coordOf j))).card
          ≤ (ts.map (fun t => addCount b m t (insert (b.dims.index c) v) i)).sum := by
        intro ts
        induction ts with
        | nil =>
          intro _
          have : ((Finset.range b.dims.cellCount).filter
              (fun j => j ∉ insert (b.dims.index c) v
                ∧ 0 < (([] : List BoardCoords).map
                    (fun t => addCount b m t (insert (b.dims.index c) v) j)).sum
                ∧ i ∈ targetIdxs b (b.dims.coordOf j))) = ∅ := by
            refine Finset.eq_empty_of_forall_not_mem ?_
            intro j hj
            obtain ⟨_, _, hpos, _⟩ := Finset.mem_filter.mp hj
            simp at hpos
          rw [this, Finset.card_empty]
          simp
        | cons t rest ihts =>
          intro hall
          have h1 := ih t (insert (b.dims.index c) v) i (hall t (by simp)) (by omega)
          have h2 := ihts (fun u hu => hall u (by simp [hu]))
          have heq : ((t :: rest).map
                (fun u => addCount b m u (insert (b.dims.index c) v) i)).sum
              = addCount b m t (insert (b.dims.index c) v) i
                + (rest.map (fun u => addCount b m u (insert (b.dims.index c) v) i)).sum := by
            rw [List.map_cons, List.sum_cons]
          have hWsub : ((Finset.range b.dims.cellCount).filter
              (fun j => j ∉ insert (b.dims.index c) v
                ∧ 0 < ((t :: rest).map
                    (fun u => addCount b m u (insert (b.dims.index c) v) j)).sum
                ∧ i ∈ targetIdxs b (b.dims.coordOf j)))
              ⊆ ((Finset.range b.dims.cellCount).filter
                  (fun j => j ∉ insert (b.dims.index c) v
                    ∧ 0 < addCount b m t (insert (b.dims.index c) v) j
                    ∧ i ∈ targetIdxs b (b.dims.coordOf j)))
                ∪ ((Finset.range b.dims.cellCount).filter
                  (fun j => j ∉ insert (b.dims.index c) v
                    ∧ 0 < (rest.map
                        (fun u => addCount b m u (insert (b.dims.index c) v) j)).sum
                    ∧ i ∈ targetIdxs b (b.dims.coordOf j))) := by
            intro j hj
            obtain ⟨hr, hjv, hpos, htg⟩ := Finset.mem_filter.mp hj
            rw [List.map_cons, List.sum_cons] at hpos
            rcases Nat.lt_or_ge 0 (addCount b m t (insert (b.dims.index c) v) j) with hp | hp
            · exact Finset.mem_union_left _ (Finset.mem_filter.mpr ⟨hr, hjv, hp, htg⟩)
            · have : 0 < (rest.map
                  (fun u => addCount b m u (insert (b.dims.index c) v) j)).sum := by omega
              exact Finset.mem_union_right _ (Finset.mem_filter.mpr ⟨hr, hjv, this, htg⟩)
          have hcard := Nat.le_trans (Finset.card_le_card hWsub) (Finset.card_union_le _ _)
          by_cases hti : b.dims.index t = i
          · rw [if_pos hti] at h1
            have hmm : i ∈ (t :: rest).map b.dims.index := by simp [hti]
            rw [if_pos hmm]
            by_cases hmr : i ∈ rest.map b.dims.index
            · rw [if_pos hmr] at h2
              omega
            · rw [if_neg hmr] at h2
              omega
          · rw [if_neg hti] at h1
            by_cases hmr : i ∈ rest.map b.dims.index
            · have hmm : i ∈ (t :: rest).map b.dims.index := by simp [hmr]
              rw [if_pos hmm, if_pos hmr] at *
              omega
            · have hmm : i ∉ (t :: rest).map b.dims.index := by
                simp only [List.map_cons, List.mem_cons]
                rintro (h | h)
                · exact hti h.symm
                · exact hmr h
              rw [if_neg hmm, if_neg hmr] at *
              omega
      have hmain := hsum (b.pieceTargets c) hts
      rw [addCount_succ, if_neg hmem]
      have hUsub : ∀ j, j ∈ ((Finset.range b.dims.cellCount).filter
            (fun j => j ∉ v ∧ 0 < addCount b (m + 1) c v j
              ∧ i ∈ targetIdxs b (b.dims.coordOf j))) →
          j ≠ b.dims.index c →
          j ∈ ((Finset.range b.dims.cellCount).filter
            (fun j => j ∉ insert (b.dims.index c) v
              ∧ 0 < ((b.pieceTargets c).map
                  (fun t => addCount b m t (insert (b.dims.index c) v) j)).sum
              ∧ i ∈ targetIdxs b (b.dims.coordOf j))) := by
        intro j hj hne
        obtain ⟨hr, hjv, hpos, htg⟩ := Finset.mem_filter.mp hj
        rw [addCount_succ, if_neg hmem] at hpos
        have hje : ¬ b.dims.index c = j := fun h => hne h.symm
        rw [if_neg hje] at hpos
        refine Finset.mem_filter.mpr ⟨hr, ?_, by omega, htg⟩
        rw [Finset.mem_insert]
        rintro (h | h)
        · exact hne h
        · exact hjv h
      by_cases hcm : b.dims.index c ∈ ((Finset.range b.dims.cellCount).filter
          (fun j => j ∉ v ∧ 0 < addCount b (m + 1) c v j
            ∧ i ∈ targetIdxs b (b.dims.coordOf j)))
      · have htgc : i ∈ targetIdxs b c := by
          obtain ⟨_, _, _, htg⟩ := Finset.mem_filter.mp hcm
          rw [coordOf_index b.dims c hc] at htg
          exact htg
        have hmemt : i ∈ (b.pieceTargets c).map b.dims.index := htgc
        rw [if_pos hmemt] at hmain
        have herase := Finset.card_erase_add_one hcm
        have hesub : (((Finset.range b.dims.cellCount).filter
            (fun j => j ∉ v ∧ 0 < addCount b (m + 1) c v j
              ∧ i ∈ targetIdxs b (b.dims.coordOf j))).erase (b.dims.index c))
            ⊆ ((Finset.range b.dims.cellCount).filter
              (fun j => j ∉ insert (b.dims.index c) v
                ∧ 0 < ((b.pieceTargets c).map
                    (fun t => addCount b m t (insert (b.dims.index c) v) j)).sum
                ∧ i ∈ targetIdxs b (b.dims.coordOf j))) := by
          intro j hj
          obtain ⟨hne, hj2⟩ := Finset.mem_erase.mp hj
          exact hUsub j hj2 hne
        have := Finset.card_le_card hesub
        omega
      · have hesub : ((Finset.range b.dims.cellCount).filter
            (fun j => j ∉ v ∧ 0 < addCount b (m + 1) c v j
              ∧ i ∈ targetIdxs b (b.dims.coordOf j)))
            ⊆ ((Finset.range b.dims.cellCount).filter
              (fun j => j ∉ insert (b.dims.index c) v
                ∧ 0 < ((b.pieceTargets c).map
                    (fun t => addCount b m t (insert (b.dims.index c) v) j)).sum
                ∧ i ∈ targetIdxs b (b.dims.coordOf j))) := by
          intro j hj
          refine hUsub j hj ?_
          intro heq
          rw [heq] at hj
          exact hcm hj
        have := Finset.card_le_card hesub
        by_cases hmemt : i ∈ (b.pieceTargets c).map b.dims.index
        · rw [if_pos hmemt] at hmain
          omega
        · rw [if_neg hmemt] at hmain
          omega

theorem replicate_getD_none {T : Type} (n i : Nat) :
    (List.replicate n (none : Option T)).getD i none = none := by
  induction n generalizing i with
  | zero => rfl
  | succ m ihm =>
    cases i with
    | zero => rfl
    | succ j => exact ihm j

/-- A cell that is still present after clearing `cc` is a different cell
that was present before. -/
theorem presence_set_none (g : GridMap Nat) (cc : BoardCoords) (j : Nat)
    (h : ((g.set cc none).cells.getD j none).isSome = true) :
    j ≠ g.dims.index cc ∧ (g.cells.getD j none).isSome = true := by
  have hlt := getD_isSome_lt _ _ h
  rw [GridMap.length_set] at hlt
  have hval : ((g.set cc none).cells.getD j none)
      = if g.dims.index cc = j ∧ g.dims.index cc < g.cells.length then none
        else g.cells.getD j none :=
    listGetD_set g.cells (g.dims.index cc) j none none
  by_cases hc : g.dims.index cc = j ∧ g.dims.index cc < g.cells.length
  · rw [hval, if_pos hc] at h
    simp at h
  · rw [hval, if_neg hc] at h
    refine ⟨?_, h⟩
    intro hj
    exact hc ⟨hj.symm, by rw [← hj]; exact hlt⟩

/-- Clearing a cell never increases any in-degree. -/
theorem inDeg_erase_le (b : Board) (g : GridMap Nat) (cc : BoardCoords) (i : Nat)
    (_hdg : g.dims = b.dims) :
    inDegIdx b (g.set cc none) i ≤ inDegIdx b g i := by
  unfold inDegIdx
  refine Finset.card_le_card ?_
  intro j hj
  obtain ⟨hr, hp, ht⟩ := Finset.mem_filter.mp hj
  obtain ⟨_, hsg⟩ := presence_set_none g cc j hp
  exact Finset.mem_filter.mpr ⟨hr, hsg, ht⟩

/-- Clearing a present cell that links onto `i` strictly decreases the
in-degree of `i`. -/
theorem inDeg_erase_lt (b : Board) (g : GridMap Nat) (cc : BoardCoords) (i : Nat)
    (hdg : g.dims = b.dims) (hcc : b.dims.contains cc = true)
    (hpres : (g.cells.getD (b.dims.index cc) none).isSome = true)
    (hlink : i ∈ targetIdxs b cc) :
    inDegIdx b (g.set cc none) i + 1 ≤ inDegIdx b g i := by
  unfold inDegIdx
  have hmem : b.dims.index cc ∈ (Finset.range b.dims.cellCount).filter
      (fun j => (g.cells.getD j none).isSome = true
        ∧ i ∈ targetIdxs b (b.dims.coordOf j)) := by
    refine Finset.mem_filter.mpr
      ⟨Finset.mem_range.mpr (index_lt_of_contains b.dims cc hcc), hpres, ?_⟩
    rw [coordOf_index b.dims cc hcc]
    exact hlink
  have hsub : ((Finset.range b.dims.cellCount).filter
      (fun j => (((g.set cc none).cells.getD j none).isSome = true)
        ∧ i ∈ targetIdxs b (b.dims.coordOf j)))
      ⊆ ((Finset.range b.dims.cellCount).filter
        (fun j => (g.cells.getD j none).isSome = true
          ∧ i ∈ targetIdxs b (b.dims.coordOf j))).erase (b.dims.index cc) := by
    intro j hj
    obtain ⟨hr, hp, ht⟩ := Finset.mem_filter.mp hj
    obtain ⟨hne, hsg⟩ := presence_set_none g cc j hp
    refine Finset.mem_erase.mpr ⟨?_, Finset.mem_filter.mpr ⟨hr, hsg, ht⟩⟩
    rw [hdg] at hne
    exact hne
  have h1 := Finset.card_le_card hsub
  have h2 := Finset.card_erase_add_one hmem
  omega

/-- Cell-level characterization of `decrementTargets` when the removed
node's targets are pairwise distinct and in bounds: exactly the present
target cells are decremented by one, everything else is untouched. -/
theorem decrementTargets_getD (b : Board) (cc : BoardCoords)
    (hnd : (targetIdxs b cc).Nodup)
    (hts : ∀ t ∈ b.pieceTargets cc, b.dims.contains t = true)
    (g : GridMap Nat) (hdg : g.dims = b.dims) (hlg : g.cells.length = b.dims.cellCount) :
    ∀ i, (decrementTargets b cc g).cells.getD i none =
      if i ∈ targetIdxs b cc ∧ (g.cells.getD i none).isSome = true then
        some ((g.cells.getD i none).getD 0 - 1)
      else g.cells.getD i none := by
  have hfold : ∀ (ts : List BoardCoords), (ts.map b.dims.index).Nodup →
      (∀ t ∈ ts, b.dims.contains t = true) →
      ∀ (g : GridMap Nat), g.dims = b.dims → g.cells.length = b.dims.cellCount →
      ∀ i, (ts.foldl
          (fun g t =>
            match g.get t with
            | some n => g.set t (some (n - 1))
            | none => g)
          g).cells.getD i none =
        if i ∈ ts.map b.dims.index ∧ (g.cells.getD i none).isSome = true then
          some ((g.cells.getD i none).getD 0 - 1)
        else g.cells.getD i none := by
    intro ts
    induction ts with
    | nil =>
      intro _ _ g _ _ i
      rw [List.foldl_nil]
      have hnm : ¬ (i ∈ ([] : List BoardCoords).map b.dims.index
          ∧ (g.cells.getD i none).isSome = true) := by
        rintro ⟨hm, _⟩
        simp at hm
      rw [if_neg hnm]
    | cons t rest ihts =>
      intro hnd2 hall g hdg2 hlg2 i
      rw [List.map_cons, List.nodup_cons] at hnd2
      obtain ⟨hnt, hndr⟩ := hnd2
      rw [List.foldl_cons]
      rcases hgt : g.get t with _ | n
      · have hgn : g.cells.getD (b.dims.index t) none = none := by
          unfold GridMap.get at hgt
          rw [hdg2] at hgt
          exact hgt
        rw [ihts hndr (fun x hx => hall x (by simp [hx])) g hdg2 hlg2 i]
        by_cases hit : b.dims.index t = i
        · rw [← hit, hgn]
          have hn1 : ¬ (b.dims.index t ∈ rest.map b.dims.index
              ∧ (none : Option Nat).isSome = true) := by
            rintro ⟨_, hs⟩
            simp at hs
          have hn2 : ¬ (b.dims.index t ∈ (t :: rest).map b.dims.index
              ∧ (none : Option Nat).isSome = true) := by
            rintro ⟨_, hs⟩
            simp at hs
          rw [if_neg hn1, if_neg hn2]
        · have hiff : (i ∈ rest.map b.dims.index ∧ (g.cells.getD i none).isSome = true)
              ↔ (i ∈ (t :: rest).map b.dims.index
                  ∧ (g.cells.getD i none).isSome = true) := by
            rw [List.map_cons, List.mem_cons]
            constructor
            · rintro ⟨h, hp⟩
              exact ⟨Or.inr h, hp⟩
            · rintro ⟨h | h, hp⟩
              · exact absurd h.symm hit
              · exact ⟨h, hp⟩
          exact if_congr hiff rfl rfl
      · have hidx : b.dims.index t < b.dims.cellCount :=
          index_lt_of_contains b.dims t (hall t (by simp))
        have hgn : g.cells.getD (b.dims.index t) none = some n := by
          unfold GridMap.get at hgt
          rw [hdg2] at hgt
          exact hgt
        have hsetD : ∀ j, (g.set t (some (n - 1))).cells.getD j none =
            if b.dims.index t = j then some (n - 1) else g.cells.getD j none := by
          intro j
          show (g.cells.set (g.dims.index t) (some (n - 1))).getD j none = _
          rw [hdg2, listGetD_set]
          by_cases hj : b.dims.index t = j
          · rw [if_pos ⟨hj, by rw [hlg2]; exact hidx⟩, if_pos hj]
          · rw [if_neg (by intro hh; exact hj hh.1), if_neg hj]
        rw [ihts hndr (fun x hx => hall x (by simp [hx])) (g.set t (some (n - 1)))
          (by rw [GridMap.dims_set]; exact hdg2)
          (by rw [GridMap.length_set]; exact hlg2) i]
        by_cases hit : b.dims.index t = i
        · have hn1 : ¬ (i ∈ rest.map b.dims.index
              ∧ ((g.set t (some (n - 1))).cells.getD i none).isSome = true) := by
            rintro ⟨hm, _⟩
            rw [← hit] at hm
            exact hnt hm
          rw [if_neg hn1, hsetD i, if_pos hit]
          have hp2 : i ∈ (t :: rest).map b.dims.index
              ∧ (g.cells.getD i none).isSome = true := by
            refine ⟨by rw [List.map_cons]; exact List.mem_cons.mpr (Or.inl hit.symm), ?_⟩
            rw [← hit, hgn]
            rfl
          rw [if_pos hp2, ← hit, hgn]
          rfl
        · rw [hsetD i, if_neg hit]
          have hiff : (i ∈ rest.map b.dims.index ∧ (g.cells.getD i none).isSome = true)
              ↔ (i ∈ (t :: rest).map b.dims.index
                  ∧ (g.cells.getD i none).isSome = true) := by
            rw [List.map_cons, List.mem_cons]
            constructor
            · rintro ⟨h, hp⟩
              exact ⟨Or.inr h, hp⟩
            · rintro ⟨h | h, hp⟩
              · exact absurd h.symm hit
              · exact ⟨h, hp⟩
          exact if_congr hiff rfl rfl
  exact hfold (b.pieceTargets cc) hnd hts g hdg hlg

/-- Removing a present node and decrementing its targets preserves the
count-dominates-in-degree invariant. -/
theorem removeStep_invariant (b : Board) (cc : BoardCoords)
    (hcc : b.dims.contains cc = true)
    (hnd : (targetIdxs b cc).Nodup)
    (hts : ∀ t ∈ b.pieceTargets cc, b.dims.contains t = true)
    (g : GridMap Nat) (hdg : g.dims = b.dims) (hlg : g.cells.length = b.dims.cellCount)
    (hpres : (g.cells.getD (b.dims.index cc) none).isSome = true)
    (hinv : refInvariant b g) :
    refInvariant b (decrementTargets b cc (g.set cc none)) := by
  have hdg1 : (g.set cc none).dims = b.dims := by rw [GridMap.dims_set]; exact hdg
  have hlg1 : (g.set cc none).cells.length = b.dims.cellCount := by
    rw [GridMap.length_set]; exact hlg
  have hchar := decrementTargets_getD b cc hnd hts (g.set cc none) hdg1 hlg1
  have hpe : ∀ j, ((decrementTargets b cc (g.set cc none)).cells.getD j none).isSome
      = ((g.set cc none).cells.getD j none).isSome := by
    intro j
    rw [hchar j]
    by_cases hcj : j ∈ targetIdxs b cc
        ∧ ((g.set cc none).cells.getD j none).isSome = true
    · rw [if_pos hcj, hcj.2]
      rfl
    · rw [if_neg hcj]
  have hdeg : ∀ i, inDegIdx b (decrementTargets b cc (g.set cc none)) i
      = inDegIdx b (g.set cc none) i := by
    intro i
    unfold inDegIdx
    congr 1
    refine Finset.filter_congr ?_
    intro j _
    rw [hpe j]
  intro i n hin
  rw [hchar i] at hin
  rw [hdeg i]
  by_cases hci : i ∈ targetIdxs b cc
      ∧ ((g.set cc none).cells.getD i none).isSome = true
  · rw [if_pos hci] at hin
    obtain ⟨hlink, hsome⟩ := hci
    obtain ⟨hne, hsg⟩ := presence_set_none g cc i hsome
    have hval2 : (g.set cc none).cells.getD i none = g.cells.getD i none := by
      show (g.cells.set (g.dims.index cc) none).getD i none = _
      rw [listGetD_set, if_neg (by rintro ⟨h1, _⟩; exact hne h1.symm)]
    rcases hm : g.cells.getD i none with _ | m
    · rw [hm] at hsg
      simp at hsg
    · have hIm := hinv i m hm
      have hlt := inDeg_erase_lt b g cc i hdg hcc hpres hlink
      rw [hval2, hm] at hin
      have hn2 : m - 1 = n := by
        have := Option.some.inj hin
        simpa using this
      omega
  · rw [if_neg hci] at hin
    obtain ⟨hne, hsg⟩ := presence_set_none g cc i (by rw [hin]; rfl)
    have hval2 : (g.set cc none).cells.getD i none = g.cells.getD i none := by
      show (g.cells.set (g.dims.index cc) none).getD i none = _
      rw [listGetD_set, if_neg (by rintro ⟨h1, _⟩; exact hne h1.symm)]
    have hval3 : g.cells.getD i none = some n := by rw [← hval2, hin]
    have hIm := hinv i n hval3
    have hle := inDeg_erase_le b g cc i hdg
    omega

/-- Removing a node without decrementing (the early-stop branch of the
prune pass) also preserves the invariant. -/
theorem setNone_invariant (b : Board) (cc : BoardCoords) (g : GridMap Nat)
    (hdg : g.dims = b.dims) (hinv : refInvariant b g) :
    refInvariant b (g.set cc none) := by
  intro i n hin
  obtain ⟨hne, hsg⟩ := presence_set_none g cc i (by rw [hin]; rfl)
  have hval2 : (g.set cc none).cells.getD i none = g.cells.getD i none := by
    show (g.cells.set (g.dims.index cc) none).getD i none = _
    rw [listGetD_set, if_neg (by rintro ⟨h1, _⟩; exact hne h1.symm)]
  have hval3 : g.cells.getD i none = some n := by rw [← hval2, hin]
  have hIm := hinv i n hval3
  have hle := inDeg_erase_le b g cc i hdg
  omega

/-- One scan of the prune pass preserves the invariant. -/
theorem prunePassGo_invariant (b : Board) (hval : b.validTargets) (hnd : b.targetsNodup)
    (d : Direction) (stop : Option BoardCoords) :
    ∀ (cs : List BoardCoords) (g : GridMap Nat) (pr : Bool),
      (∀ c ∈ cs, b.dims.contains c = true) →
      g.dims = b.dims → g.cells.length = b.dims.cellCount →
      refInvariant b g →
      refInvariant b (prunePassGo b d stop cs g pr).1 := by
  intro cs
  induction cs with
  | nil => intro g pr _ _ _ hinv; exact hinv
  | cons c rest ih =>
    intro g pr hall hdg hlg hinv
    rw [prunePassGo_cons]
    rcases hgc : g.get c with _ | rc
    · exact ih g pr (fun x hx => hall x (by simp [hx])) hdg hlg hinv
    · dsimp only
      have hc : b.dims.contains c = true := hall c (by simp)
      have hciter : c ∈ b.dims.iter := mem_iter_of_contains b.dims c hc
      have hpres : (g.cells.getD (b.dims.index c) none).isSome = true := by
        unfold GridMap.get at hgc
        rw [hdg] at hgc
        rw [hgc]
        rfl
      by_cases hcond : (rc = 0 || shouldPrune b g c d) = true
      · rw [if_pos hcond]
        by_cases hsc : stop = some c
        · rw [if_pos hsc]
          exact setNone_invariant b c g hdg hinv
        · rw [if_neg hsc]
          refine ih _ true (fun x hx => hall x (by simp [hx])) ?_ ?_ ?_
          · rw [(decrementTargets_shape b c (g.set c none)).1, GridMap.dims_set]
            exact hdg
          · rw [(decrementTargets_shape b c (g.set c none)).2, GridMap.length_set]
            exact hlg
          · exact removeStep_invariant b c hc (hnd c hciter) (hval c hciter)
              g hdg hlg hpres hinv
      · rw [if_neg hcond]
        exact ih g pr (fun x hx => hall x (by simp [hx])) hdg hlg hinv

/-- The whole prune loop preserves the invariant. -/
theorem pruneLoop_invariant (b : Board) (hval : b.validTargets) (hnd : b.targetsNodup)
    (d : Direction) (stop : Option BoardCoords) :
    ∀ (fuel : Nat) (g : GridMap Nat),
      g.dims = b.dims → g.cells.length = b.dims.cellCount →
      refInvariant b g → refInvariant b (pruneLoop b d stop fuel g) := by
  intro fuel
  induction fuel with
  | zero => intro g _ _ hinv; exact hinv
  | succ m ih =>
    intro g hdg hlg hinv
    rw [pruneLoop_succ]
    rcases hps : prunePass b d stop g with ⟨g1, p1, s1⟩
    unfold prunePass at hps
    have hshape := prunePassGo_shape b d stop b.dims.iter g false
    rw [hps] at hshape
    have hd1 : g1.dims = g.dims := hshape.1
    have hl1 : g1.cells.length = g.cells.length := hshape.2
    have hinv1 : refInvariant b g1 := by
      have h := prunePassGo_invariant b hval hnd d stop b.dims.iter g false
        (fun x hx => contains_of_mem_iter b.dims x hx) hdg hlg hinv
      rw [hps] at h
      exact h
    dsimp only
    cases s1
    · cases p1
      · exact hinv1
      · exact ih g1 (by rw [hd1]; exact hdg) (by rw [hl1]; exact hlg) hinv1
    · exact hinv1

/-- The graph built by `MoveSolver::new` satisfies the invariant: since
every graph member's beam links are traversed at least once during
gather, each cell's reference count dominates its in-degree. -/
theorem gatherInvariant (b : Board) (leader : BoardCoords)
    (hval : b.validTargets) (hld : b.dims.contains leader = true)
    (hdims : b.pieces.dims = b.dims) :
    refInvariant b (MoveSolver.new b leader).graph := by
  have hdg0 : (GridMap.like b.pieces : GridMap Nat).dims = b.dims := by
    show (⟨b.pieces.dims.rows, b.pieces.dims.cols⟩ : Dimensions) = b.dims
    rw [hdims]
  have hlg0 : (GridMap.like b.pieces : GridMap Nat).cells.length = b.dims.cellCount := by
    show (List.replicate (b.pieces.dims.rows * b.pieces.dims.cols)
      (none : Option Nat)).length = b.dims.cellCount
    rw [List.length_replicate, hdims]
    rfl
  have hempty : ∀ i, ((GridMap.like b.pieces : GridMap Nat).cells.getD i none) = none := by
    intro i
    show (List.replicate (b.pieces.dims.rows * b.pieces.dims.cols)
      (none : Option Nat)).getD i none = none
    exact replicate_getD_none _ _
  have hga := gather_add b hval (b.dims.cellCount + 1) leader (GridMap.like b.pieces) ∅
    hld hdg0 hlg0
  have hpj : ∀ j, ((gather b (b.dims.cellCount + 1) leader
        (GridMap.like b.pieces) ∅).cells.getD j none).isSome = true
      ↔ 0 < addCount b (b.dims.cellCount + 1) leader ∅ j := by
    intro j
    have h2 := (hga j).2
    rw [hempty j] at h2
    simpa using h2
  have hbound : (remaining b (∅ : Finset Nat)).card + 1 ≤ b.dims.cellCount + 1 := by
    have : (remaining b (∅ : Finset Nat)).card = b.dims.cellCount := by
      unfold remaining
      rw [Finset.sdiff_empty, Finset.card_range]
    omega
  intro i n hin
  have hin2 : (gather b (b.dims.cellCount + 1) leader
      (GridMap.like b.pieces) ∅).cells.getD i none = some n := hin
  have hv1 := (hga i).1
  rw [hempty i, hin2] at hv1
  simp only [Option.getD_some, Option.getD_none, Nat.zero_add] at hv1
  have hkey := addCount_ge_sources b hval (b.dims.cellCount + 1) leader ∅ i hld hbound
  have hfeq : (Finset.range b.dims.cellCount).filter
      (fun j => (((MoveSolver.new b leader).graph.cells.getD j none).isSome = true)
        ∧ i ∈ targetIdxs b (b.dims.coordOf j))
      = (Finset.range b.dims.cellCount).filter
        (fun j => j ∉ (∅ : Finset Nat)
          ∧ 0 < addCount b (b.dims.cellCount + 1) leader ∅ j
          ∧ i ∈ targetIdxs b (b.dims.coordOf j)) := by
    refine Finset.filter_congr ?_
    intro j _
    constructor
    · rintro ⟨hs, ht⟩
      exact ⟨Finset.not_mem_empty j, (hpj j).mp hs, ht⟩
    · rintro ⟨_, hpos, ht⟩
      exact ⟨(hpj j).mpr hpos, ht⟩
  show inDegIdx b (MoveSolver.new b leader).graph i ≤ n
  unfold inDegIdx
  rw [hfeq, hv1]
  by_cases hli : b.dims.index leader = i
  · rw [if_pos hli] at hkey
    omega
  · rw [if_neg hli] at hkey
    omega

/-- Claim C9: in every run of `MoveSolver` pruning over a graph built by
`gather`, whenever a removed node's Piece-kind beam target is still
present in the graph, that target's reference count is at least 1
immediately before it is decremented, so the `u8` decrement never
underflows during `can_move` or `drag`.  Formally: (1) the gathered
graph of `MoveSolver::new` satisfies the count-dominates-in-degree
invariant; (2) every prune-pass scan preserves the invariant, so it
holds at every intermediate graph of a pruning run; (3) the whole prune
loop (hence the graphs of `can_move` and `drag`) preserves it; and
(4) under the invariant, when a present node `c` is removed, every one
of its beam targets still present in the remaining graph carries a
count of at least 1. -/
theorem refcount_no_underflow (b : Board) (leader : BoardCoords)
    (hval : b.validTargets) (hnd : b.targetsNodup)
    (hld : b.dims.contains leader = true)
    (hdims : b.pieces.dims = b.dims) :
    refInvariant b (MoveSolver.new b leader).graph
    ∧ (∀ (d : Direction) (stop : Option BoardCoords) (cs : List BoardCoords)
        (g : GridMap Nat) (pr : Bool),
        (∀ c ∈ cs, b.dims.contains c = true) →
        g.dims = b.dims → g.cells.length = b.dims.cellCount →
        refInvariant b g →
        refInvariant b (prunePassGo b d stop cs g pr).1)
    ∧ (∀ (d : Direction) (stop : Option BoardCoords) (fuel : Nat) (g : GridMap Nat),
        g.dims = b.dims → g.cells.length = b.dims.cellCount →
        refInvariant b g →
        refInvariant b (pruneLoop b d stop fuel g))
    ∧ (∀ (g : GridMap Nat) (c : BoardCoords) (k : Nat),
        g.dims = b.dims → refInvariant b g →
        b.dims.contains c = true → g.get c = some k →
        ∀ t ∈ b.pieceTargets c, ∀ n, (g.set c none).get t = some n → 1 ≤ n) := by
  refine ⟨gatherInvariant b leader hval hld hdims,
    fun d stop cs g pr => prunePassGo_invariant b hval hnd d stop cs g pr,
    fun d stop fuel g => pruneLoop_invariant b hval hnd d stop fuel g,
    ?_⟩
  intro g c k hdg hinv hcc hgc t ht n hn
  have hpresc : (g.cells.getD (b.dims.index c) none).isSome = true := by
    unfold GridMap.get at hgc
    rw [hdg] at hgc
    rw [hgc]
    rfl
  have hn2 : (g.cells.set (g.dims.index c) none).getD (g.dims.index t) none = some n := hn
  rw [hdg, listGetD_set] at hn2
  have hvt : g.cells.getD (b.dims.index t) none = some n := by
    by_cases hcnd : b.dims.index c = b.dims.index t ∧ b.dims.index c < g.cells.length
    · rw [if_pos hcnd] at hn2
      exact absurd hn2 (by simp)
    · rw [if_neg hcnd] at hn2
      exact hn2
  have hIm := hinv (b.dims.index t) n hvt
  have hmem : b.dims.index c ∈ (Finset.range b.dims.cellCount).filter
      (fun j => (g.cells.getD j none).isSome = true
        ∧ b.dims.index t ∈ targetIdxs b (b.dims.coordOf j)) := by
    refine Finset.mem_filter.mpr
      ⟨Finset.mem_range.mpr (index_lt_of_contains b.dims c hcc), hpresc, ?_⟩
    rw [coordOf_index b.dims c hcc]
    exact List.mem_map_of_mem b.dims.index ht
  have hpos : 0 < inDegIdx b g (b.dims.index t) :=
    Finset.card_pos.mpr ⟨b.dims.index c, hmem⟩
  omega

/-- Witness for C9: the concrete four-manipulator beam ring satisfies all
hypotheses, so its gathered graph carries the invariant. -/
theorem refcount_no_underflow_witness :
    refInvariant ringBoard (MoveSolver.new ringBoard ⟨1, 1⟩).graph :=
  (refcount_no_underflow ringBoard ⟨1, 1⟩ (by decide) (by decide) (by decide)
    (by decide)).1

end Particlz
